import Mathlib

/-!
Shallow embedding of the flag-management core of the EasyClangComplete
plugin (`plugin/completion/flags_manager.py`) and proofs about the
claims of its specification.

Modelling conventions:
* Python strings are Lean `String`s (sequences of code points).
* The filesystem is a partial map from path strings to file records
  (raw text content plus a natural-number modification timestamp).
* Python `set` is `Finset String`; set iteration order (used only when
  a set is serialised to a file) is modelled as sorted order.
* Fallible Python code (uncaught exceptions) is modelled with
  `Except PyErr`.
* The `File`/`Tools` helper module of the repository is not under
  `src/`; its members are modelled from the spec and are marked as such.
-/

namespace ECC

/-- Decidable equality for exception-carrying results, used to evaluate
the embedded functions on concrete inputs. -/
instance {ε α : Type} [DecidableEq ε] [DecidableEq α] : DecidableEq (Except ε α) := fun x y =>
  match x, y with
  | .error a, .error b =>
    if h : a = b then .isTrue (congrArg Except.error h)
    else .isFalse (fun hc => by cases hc; exact h rfl)
  | .error _, .ok _ => .isFalse (fun hc => by cases hc)
  | .ok _, .error _ => .isFalse (fun hc => by cases hc)
  | .ok a, .ok b =>
    if h : a = b then .isTrue (congrArg Except.ok h)
    else .isFalse (fun hc => by cases hc; exact h rfl)

/-- Decidable equality for optional values that avoids transporting the
decision along an equation, so that it evaluates inside the kernel. -/
instance (priority := 2000) {α : Type} [DecidableEq α] : DecidableEq (Option α) := fun x y =>
  match x, y with
  | none, none => .isTrue rfl
  | none, some _ => .isFalse (fun hc => by cases hc)
  | some _, none => .isFalse (fun hc => by cases hc)
  | some a, some b =>
    if h : a = b then .isTrue (congrArg some h)
    else .isFalse (fun hc => by cases hc; exact h rfl)

/-! ### Python string primitives -/

/-- Boolean test that the first character list is a prefix of the
second; the character-level meaning of Python `str.startswith`. -/
def listPrefixB : List Char → List Char → Bool
  | [], _ => true
  | _ :: _, [] => false
  | a :: as, b :: bs => a = b && listPrefixB as bs

/-- Python `s.startswith(pre)`. -/
def pyStartsWith (s pre : String) : Bool := listPrefixB pre.data s.data

/-- Character-level body of Python `s.strip()`. -/
def pyStripData (d : List Char) : List Char :=
  ((d.dropWhile Char.isWhitespace).reverse.dropWhile Char.isWhitespace).reverse

/-- Python `s.strip()`: remove leading and trailing whitespace. -/
def pyStrip (s : String) : String := ⟨pyStripData s.data⟩

/-- Python `s[n:]` (strings are indexed by code points). -/
def pyDrop (n : Nat) (s : String) : String := ⟨s.data.drop n⟩

/-- Split a character list at every character satisfying `p`, keeping
empty segments, as Python `str.split(sep)` does. -/
def splitOnPred (p : Char → Bool) : List Char → List (List Char)
  | [] => [[]]
  | c :: rest =>
    if p c then [] :: splitOnPred p rest
    else
      match splitOnPred p rest with
      | l :: ls => (c :: l) :: ls
      | [] => [[c]]

/-- Python `s.split()` with no argument: split on whitespace and drop
the empty tokens. -/
def pySplitWs (s : String) : List String :=
  ((splitOnPred Char.isWhitespace s.data).filter (fun l => l ≠ [])).map (fun l => ⟨l⟩)

/-- Accumulator loop of Python `file.readlines()`: cut the text after
every newline character, each line keeping its terminating newline. -/
def pyReadlinesAux : List Char → List Char → List (List Char)
  | [], [] => []
  | [], acc => [acc.reverse]
  | c :: rest, acc =>
    if c = '\n' then (acc.reverse ++ ['\n']) :: pyReadlinesAux rest []
    else pyReadlinesAux rest (c :: acc)

/-- Python `file.readlines()` on raw text. -/
def pyReadlines (s : String) : List String := (pyReadlinesAux s.data []).map (fun l => ⟨l⟩)

/-- Character-level body of Python `'\n'.join(lines)`. -/
def joinLinesChars : List (List Char) → List Char
  | [] => []
  | [l] => l
  | l :: ls => l ++ '\n' :: joinLinesChars ls

/-- Python `'\n'.join(lines)`. -/
def joinLines (lines : List String) : String := ⟨joinLinesChars (lines.map String.data)⟩

/-- Substring membership, modelling Python `sub in s`. -/
def containsSubAux (pat : List Char) : List Char → Bool
  | [] => listPrefixB pat []
  | c :: rest => listPrefixB pat (c :: rest) || containsSubAux pat rest

/-- Substring membership, modelling Python `sub in s`. -/
def containsSub (s pat : String) : Bool := containsSubAux pat.data s.data

/-! ### posixpath primitives used by the source through `os.path` -/

/-- Python `posixpath.isabs`. -/
def posixIsAbs (s : String) : Bool := pyStartsWith s "/"

/-- Test that a string ends with the path separator. -/
def endsWithSlash (s : String) : Bool := s.data.getLast? = some '/'

/-- Python `posixpath.join` restricted to two components, the only
arity the source uses. -/
def pathJoin (a b : String) : String :=
  if pyStartsWith b "/" then b
  else if a = "" || endsWithSlash a then a ++ b
  else a ++ "/" ++ b

/-- Python `posixpath.dirname`. -/
def dirname (p : String) : String :=
  match p.data.reverse.findIdx? (fun c => c = '/') with
  | none => ""
  | some k =>
    let head := p.data.take (p.data.length - k)
    if head.all (fun c => c = '/') then ⟨head⟩
    else ⟨(head.reverse.dropWhile (fun c => c = '/')).reverse⟩

/-- Python `posixpath.normpath`. -/
def normpath (p : String) : String :=
  if p = "" then "." else
  let slashes : Nat :=
    if pyStartsWith p "/" then
      if pyStartsWith p "//" && !pyStartsWith p "///" then 2 else 1
    else 0
  let comps : List String := (splitOnPred (fun c => c = '/') p.data).map (fun l => ⟨l⟩)
  let newComps := comps.foldl (fun acc comp =>
    if comp == "" || comp == "." then acc
    else if comp != ".." || (slashes == 0 && acc.isEmpty) || acc.getLast? == some ".." then
      acc ++ [comp]
    else if !acc.isEmpty then acc.dropLast
    else acc) []
  let res : String := ⟨List.replicate slashes '/' ++ (String.intercalate "/" newComps).data⟩
  if res = "" then "." else res

/-! ### Filesystem and file references -/

/-- Record of one on-disk file: raw text content and modification
timestamp. -/
structure FileRec where
  content : String
  mtime : Nat
deriving DecidableEq

/-- Filesystem state: a partial map from path strings to files. -/
abbrev FS := String → Option FileRec

/-- Modelled from the spec: the `File` wrapper of the missing `tools`
module holds an optional bound path and the recorded last-modified
timestamp (`none` when never observed). -/
structure File where
  path : Option String
  lastSeen : Option Nat
deriving DecidableEq

/-- Modelled from the spec: `File.loaded` reports whether a path is
bound. -/
def File.loaded (f : File) : Bool := f.path.isSome

/-- Modelled from the spec: `File.full_path` returns the bound path. -/
def File.full_path (f : File) : String := f.path.getD ""

/-- Modelled from the spec: `File.folder` returns the containing
directory. -/
def File.folder (f : File) : String := dirname f.full_path

/-- Modelled from the spec: `File.was_modified` returns true exactly
once per actual timestamp change since the last observation, recording
the new timestamp as a side effect; an unbound or missing file reads as
unmodified. -/
def File.was_modified (f : File) (fs : FS) : Bool × File :=
  match f.path with
  | none => (false, f)
  | some p =>
    match fs p with
    | none => (false, f)
    | some r =>
      if f.lastSeen = some r.mtime then (false, f)
      else (true, { f with lastSeen := some r.mtime })

/-- Modelled from the spec: the upward walk of `File.search`, stepping
from `current` toward `toF` (inclusive) and stopping when the parent
directory no longer changes. -/
def searchUpward (fs : FS) (file_name : String) : Nat → String → String → Option String → File
  | 0, _, _, _ => ⟨none, none⟩
  | fuel + 1, current, toF, marker =>
    let candidate := pathJoin current file_name
    let hit :=
      match fs candidate with
      | none => false
      | some r =>
        match marker with
        | none => true
        | some m => containsSub r.content m
    if hit then ⟨some candidate, none⟩
    else if current = toF then ⟨none, none⟩
    else
      let parent := dirname current
      if parent = current then ⟨none, none⟩
      else searchUpward fs file_name fuel parent toF marker

/-- Modelled from the spec: `File.search` walks upward from
`from_folder` toward `to_folder` (inclusive boundary), checking each
level for a file named `file_name` whose content contains
`search_content` when one is given; a search outside valid bounds
yields a not-found (empty) reference rather than raising. -/
def File.search (fs : FS) (file_name : String) (from_folder to_folder : Option String)
    (search_content : Option String) : File :=
  match from_folder, to_folder with
  | some fromF, some toF =>
    if fromF = "" || toF = "" then ⟨none, none⟩
    else searchUpward fs file_name (fromF.data.length + 1) fromF toF search_content
  | _, _ => ⟨none, none⟩

/-! ### SearchScope -/

/-- Python truthiness of an optional string (`None` and the empty
string are falsy). -/
def pyTruthyOptStr : Option String → Bool
  | none => false
  | some s => !(s == "")

/-- Embedding of the source class `SearchScope`. -/
structure SearchScope where
  from_folder : Option String
  to_folder : Option String
deriving DecidableEq

/-- Embedding of `SearchScope.valid`. -/
def SearchScope.valid (s : SearchScope) : Bool :=
  pyTruthyOptStr s.from_folder && pyTruthyOptStr s.to_folder

/-! ### Finset evaluation helpers -/

/-- Lexicographic order on character lists, decided at the level of
scalar values so that it evaluates inside the kernel. -/
def clLe : List Char → List Char → Bool
  | [], _ => true
  | _ :: _, [] => false
  | a :: as, b :: bs => if a = b then clLe as bs else decide (a.val.toNat < b.val.toNat)

theorem char_eq_of_toNat_eq {a b : Char} (h : a.val.toNat = b.val.toNat) : a = b :=
  Char.eq_of_val_eq (UInt32.eq_of_toBitVec_eq (BitVec.eq_of_toNat_eq h))

theorem clLe_total : ∀ x y, clLe x y = true ∨ clLe y x = true
  | [], _ => Or.inl rfl
  | _ :: _, [] => Or.inr rfl
  | a :: as, b :: bs => by
    by_cases h : a = b
    · subst h
      simpa [clLe] using clLe_total as bs
    · have hne : a.val.toNat ≠ b.val.toNat := fun hc => h (char_eq_of_toNat_eq hc)
      have hne' : b ≠ a := fun hc => h hc.symm
      rcases Nat.lt_or_ge a.val.toNat b.val.toNat with hlt | hge
      · exact Or.inl (by simp [clLe, h, hlt])
      · exact Or.inr (by simp [clLe, hne']; omega)

theorem clLe_trans : ∀ x y z, clLe x y = true → clLe y z = true → clLe x z = true
  | [], _, _, _, _ => rfl
  | a :: as, b :: bs, [], hxy, hyz => by cases hyz
  | a :: as, [], _, hxy, _ => by cases hxy
  | a :: as, b :: bs, c :: cs, hxy, hyz => by
    by_cases hab : a = b <;> by_cases hbc : b = c
    · subst hab; subst hbc
      simp only [clLe, if_pos rfl] at hxy hyz ⊢
      exact clLe_trans _ _ _ hxy hyz
    · subst hab
      simpa [clLe, hbc] using hyz
    · subst hbc
      simpa [clLe, hab] using hxy
    · simp only [clLe, if_neg hab] at hxy
      simp only [clLe, if_neg hbc] at hyz
      have hac : a ≠ c := by
        intro hc; subst hc
        simp only [decide_eq_true_eq] at hxy hyz; omega
      simp only [clLe, if_neg hac, decide_eq_true_eq] at hxy hyz ⊢
      omega

theorem clLe_antisymm : ∀ x y, clLe x y = true → clLe y x = true → x = y
  | [], [], _, _ => rfl
  | [], _ :: _, _, hyx => by cases hyx
  | _ :: _, [], hxy, _ => by cases hxy
  | a :: as, b :: bs, hxy, hyx => by
    by_cases hab : a = b
    · subst hab
      simp only [clLe, if_pos rfl] at hxy hyx
      exact congrArg _ (clLe_antisymm _ _ hxy hyx)
    · have hba : b ≠ a := fun hc => hab hc.symm
      simp only [clLe, if_neg hab, if_neg hba, decide_eq_true_eq] at hxy hyx
      omega

/-- Canonical order on strings used to model the (arbitrary) iteration
order of a Python set deterministically. -/
def strLe (s t : String) : Prop := clLe s.data t.data = true

instance : DecidableRel strLe := fun s t =>
  inferInstanceAs (Decidable (clLe s.data t.data = true))

instance : IsTotal String strLe := ⟨fun s t => clLe_total s.data t.data⟩

instance : IsTrans String strLe := ⟨fun s t u => clLe_trans s.data t.data u.data⟩

instance : IsAntisymm String strLe :=
  ⟨fun s t hst hts => by
    cases s; cases t
    exact congrArg _ (clLe_antisymm _ _ hst hts)⟩

/-- Elements of a string multiset in sorted order; a computable,
kernel-reducible canonical iteration order. -/
def msetSortedList (s : Multiset String) : List String :=
  Quotient.lift (List.insertionSort strLe)
    (fun a b hab =>
      List.eq_of_perm_of_sorted
        (((List.perm_insertionSort _ a).trans hab).trans
          (List.perm_insertionSort _ b).symm)
        (List.sorted_insertionSort _ a) (List.sorted_insertionSort _ b)) s

theorem msetSortedList_coe (s : Multiset String) :
    (msetSortedList s : Multiset String) = s :=
  Quotient.inductionOn s fun l => Quotient.sound (List.perm_insertionSort _ l)

/-- Kernel-reducible decision of flag-set equality through the sorted
normal form, used to evaluate the embedded functions on concrete
inputs. -/
instance (priority := 2000) : DecidableEq (Finset String) := fun A B =>
  decidable_of_iff (msetSortedList A.val = msetSortedList B.val)
    ⟨fun h => Finset.val_inj.mp
        (by rw [← msetSortedList_coe A.val, h, msetSortedList_coe]),
     fun h => by rw [h]⟩

/-! ### Exceptions and the compilation database -/

/-- Exceptions the embedded code can raise. -/
inductive PyErr where
  | jsonDecodeError
  | indexError
  | attributeError
  | fileNotFoundError
deriving DecidableEq

/-- Parse outcome of a compilation database file: `malformed` models
text on which `json.load` raises; `val none` models JSON `null`;
`val (some cmds)` models a JSON array of records, each record
represented by its `command` string. -/
inductive DBFileContent where
  | malformed
  | val (data : Option (List String))
deriving DecidableEq

/-- Embedding of the token loop of `FlagsManager.flags_from_database`
(`for (i, part) in enumerate(all_command_parts)`): the walk down the
token list carries the rest of the list, so `all_command_parts[i + 1]`
is the head of the rest, and its unchecked access on an empty rest
models the possible `IndexError`. -/
def db_loop : List String → Finset String → Except PyErr (Finset String)
  | [], acc => .ok acc
  | part :: rest, acc =>
    if pyStartsWith part "-I" || pyStartsWith part "-D" then
      db_loop rest (insert (pyStrip part) acc)
    else if pyStartsWith part "-isystem" then
      match rest with
      | [] => .error .indexError
      | nxt :: _ => db_loop rest (insert (pyStrip (part ++ " " ++ nxt)) acc)
    else db_loop rest acc

/-- Embedding of `FlagsManager.flags_from_database`: `.ok none` models
the Python `return None` taken when the parsed data is falsy; errors
model the exceptions the function lets escape. -/
def flags_from_database (content : DBFileContent) : Except PyErr (Option (Finset String)) :=
  match content with
  | .malformed => .error .jsonDecodeError
  | .val none => .ok none
  | .val (some entries) =>
    if entries.isEmpty then .ok none
    else
      match entries.foldlM (fun acc cmd => db_loop (pySplitWs cmd) acc) (∅ : Finset String) with
      | .error e => .error e
      | .ok s => .ok (some s)

/-! ### Parsing a flag-list file -/

/-- Format mask applied to include flags: the path is quoted and
space-separated when `separate_includes` is set and concatenated
directly otherwise. -/
def maskFmt (separate_includes : Bool) (flagname p : String) : String :=
  if separate_includes then flagname ++ " \"" ++ p ++ "\"" else flagname ++ p

/-- Embedding of the per-line loop body of
`FlagsManager.flags_from_clang_file`. -/
def clang_line (separate_includes : Bool) (folder : String) (flags : List String)
    (line : String) : List String :=
  if pyStartsWith line "-D" then flags ++ [pyStrip line]
  else if pyStartsWith line "-I" then
    let path_to_add := pyStrip (pyDrop 2 line)
    if posixIsAbs path_to_add then
      flags ++ [maskFmt separate_includes "-I" (normpath path_to_add)]
    else
      flags ++ [maskFmt separate_includes "-I" (pathJoin folder path_to_add)]
  else if pyStartsWith line "-isystem" then
    let path_to_add := pyStrip (pyDrop 8 line)
    if posixIsAbs path_to_add then
      flags ++ [pyStrip (maskFmt separate_includes "-isystem" (normpath path_to_add))]
    else
      flags ++ [pyStrip (maskFmt separate_includes "-isystem" (pathJoin folder path_to_add))]
  else flags

/-- Embedding of `FlagsManager.flags_from_clang_file`: an unloaded file
yields `[]` (the load error is only logged); a bound path missing on
disk models `open` raising `FileNotFoundError`. -/
def flags_from_clang_file (fs : FS) (file : File) (separate_includes : Bool) :
    Except PyErr (List String) :=
  match file.path with
  | none => .ok []
  | some p =>
    match fs p with
    | none => .error .fileNotFoundError
    | some r =>
      .ok ((pyReadlines r.content).foldl (clang_line separate_includes (File.folder file)) [])

/-! ### The flags manager and its world -/

/-- Outcome of the interactive `sublime.yes_no_cancel_dialog` prompt.
Modelled from the spec: the prompt offers exactly three responses. -/
inductive DialogAnswer where
  | yes
  | no
  | cancel
deriving DecidableEq

/-- State of the outside world threaded through the orchestrator:
the filesystem, a clock stamping writes, the outcome of the external
`compile_cmake` invocation (modelled from the spec as a deterministic
oracle keyed by the build file's path, since the cmake subprocess and
its content-addressed temp directory live outside the modelled
filesystem), and the user's dialog answer. -/
structure World where
  fs : FS
  clock : Nat
  cmakeDB : String → Option DBFileContent
  dialog : DialogAnswer

/-- Embedding of the source class `FlagsManager`'s instance state. -/
structure FlagsManager where
  cmake_file : File
  clang_complete_file : File
  flags : List String
  search_scope : SearchScope
  use_cmake : Bool
  flags_update_strategy : String

/-- Embedding of `FlagsManager.__init__`: an invalid search scope is
only logged; all configuration values are stored regardless. -/
def FlagsManager.init (use_cmake : Bool) (flags_update_strategy : String)
    (search_scope : SearchScope) : FlagsManager :=
  { cmake_file := ⟨none, none⟩
    clang_complete_file := ⟨none, none⟩
    flags := []
    search_scope := search_scope
    use_cmake := use_cmake
    flags_update_strategy := flags_update_strategy }

def FlagsManager.CMAKE_FILE_NAME : String := "CMakeLists.txt"

def FlagsManager.CLANG_COMPLETE_FILE_NAME : String := ".clang_complete"

/-- Embedding of `FlagsManager.get_flags_strategy`; the dialog answer
comes from the world. -/
def get_flags_strategy (strategy : String) (answer : DialogAnswer) : String :=
  if strategy = "ask" then
    match answer with
    | .yes => "merge"
    | .no => "overwrite"
    | .cancel => "keep_old"
  else strategy

/-- Serialisation of a flag set for `f.write`: the flags joined by
newlines with one trailing newline. Python set iteration order is
arbitrary; it is modelled as sorted order. -/
def flagsText (flags : Finset String) : String :=
  joinLines (msetSortedList flags.val) ++ "\n"

/-- Effect of `open(file_path, 'w'); f.write(...)`: replace the file's
content, stamping it with the current clock. -/
def doWrite (w : World) (flags : Finset String) (file_path : String) : World × List String :=
  ({ w with
      fs := fun q => if q = file_path then some ⟨flagsText flags, w.clock⟩ else w.fs q
      clock := w.clock + 1 },
   [file_path])

/-- Embedding of `FlagsManager.write_flags_to_file`; the returned list
records the paths written. -/
def write_flags_to_file (w : World) (new_flags : Finset String) (file_path : String)
    (strategy : String) : Except PyErr (World × List String) :=
  match w.fs file_path with
  | some _ =>
    let flag_strategy := get_flags_strategy strategy w.dialog
    if flag_strategy = "keep_old" then .ok (w, [])
    else if flag_strategy = "merge" then
      match flags_from_clang_file w.fs ⟨some file_path, none⟩ false with
      | .error e => .error e
      | .ok curr => .ok (doWrite w (new_flags ∪ curr.toFinset) file_path)
    else .ok (doWrite w new_flags file_path)
  | none => .ok (doWrite w new_flags file_path)

/-- Embedding of lines 66–73 of `get_flags`: locate the cmake file when
it is used but not yet loaded. -/
def step_cmake_search (w : World) (m : FlagsManager) : FlagsManager :=
  if m.use_cmake && !m.cmake_file.loaded then
    { m with cmake_file := (File.search w.fs FlagsManager.CMAKE_FILE_NAME
        m.search_scope.from_folder m.search_scope.to_folder (some "project")) }
  else m

/-- The short-circuit `self._use_cmake and self._cmake_file.was_modified()`
of line 75: the modification query (whose observation consumes the
change signal) only runs when cmake is used. -/
def cmake_pr (w : World) (m : FlagsManager) : Bool × File :=
  if m.use_cmake then m.cmake_file.was_modified w.fs else (false, m.cmake_file)

/-- The path of the flag-list file generated next to the build file
(line 84). -/
def new_clang_path (w : World) (m : FlagsManager) : String :=
  pathJoin (cmake_pr w m).2.folder FlagsManager.CLANG_COMPLETE_FILE_NAME

/-- Embedding of lines 75–103 of `get_flags`: when the cmake file was
modified, rebuild the database, derive flags, and reconcile them with
the on-disk flag-list file unless the symmetric difference is empty. -/
def step_cmake (w : World) (m : FlagsManager) :
    Except PyErr (World × FlagsManager × List String) :=
  if (cmake_pr w m).1 then
    match w.cmakeDB (cmake_pr w m).2.full_path with
    | none => .ok (w, { m with cmake_file := (cmake_pr w m).2 }, [])
    | some dbc =>
      match flags_from_database dbc with
      | .error e => .error e
      | .ok none => .error .attributeError
      | .ok (some new_flags) =>
        match flags_from_clang_file w.fs ⟨some (new_clang_path w m), none⟩ false with
        | .error e => .error e
        | .ok curr =>
          if 0 < (symmDiff new_flags curr.toFinset).card then
            match write_flags_to_file w new_flags (new_clang_path w m)
                m.flags_update_strategy with
            | .error e => .error e
            | .ok (w2, wr) => .ok (w2, { m with cmake_file := (cmake_pr w m).2 }, wr)
          else .ok (w, { m with cmake_file := (cmake_pr w m).2 }, [])
  else .ok (w, { m with cmake_file := (cmake_pr w m).2 }, [])

/-- Embedding of lines 105–110 of `get_flags`: locate the flag-list
file when it is not loaded. -/
def step_clang_search (w : World) (m : FlagsManager) : FlagsManager :=
  if !m.clang_complete_file.loaded then
    { m with clang_complete_file := (File.search w.fs
        FlagsManager.CLANG_COMPLETE_FILE_NAME
        m.search_scope.from_folder m.search_scope.to_folder none) }
  else m

/-- Embedding of lines 112–115 of `get_flags`: re-parse the flag-list
file when it changed. -/
def step_clang_reload (w : World) (m3 : FlagsManager) (separate_includes : Bool) :
    Except PyErr FlagsManager :=
  if (m3.clang_complete_file.was_modified w.fs).1 then
    match flags_from_clang_file w.fs (m3.clang_complete_file.was_modified w.fs).2
        separate_includes with
    | .error e => .error e
    | .ok fl =>
      .ok { m3 with clang_complete_file := (m3.clang_complete_file.was_modified w.fs).2
                    flags := fl }
  else .ok { m3 with clang_complete_file := (m3.clang_complete_file.was_modified w.fs).2 }

/-- Embedding of lines 105–118 of `get_flags`: locate the flag-list
file when unloaded, and re-parse it when it changed. -/
def step_clang (w : World) (m : FlagsManager) (separate_includes : Bool) :
    Except PyErr FlagsManager :=
  step_clang_reload w (step_clang_search w m) separate_includes

/-- Result of one `get_flags` call: the returned flag list, the new
manager state, the new world, and the log of paths written. -/
structure GetFlagsResult where
  flags : List String
  mgr : FlagsManager
  world : World
  writes : List String

/-- Embedding of `FlagsManager.get_flags`. -/
def get_flags (w : World) (m : FlagsManager) (separate_includes : Bool) :
    Except PyErr GetFlagsResult :=
  let m1 := step_cmake_search w m
  match step_cmake w m1 with
  | .error e => .error e
  | .ok (w2, m2, wr) =>
    match step_clang w2 m2 separate_includes with
    | .error e => .error e
    | .ok m3 => .ok ⟨m3.flags, m3, w2, wr⟩

end ECC


namespace ECC

/-! ### Helper lemmas -/

/-- A search with an invalid scope (an unset or empty bound) finds
nothing. -/
theorem search_invalid_scope (fs : FS) (name : String) (scope : SearchScope)
    (marker : Option String) (h : scope.valid = false) :
    File.search fs name scope.from_folder scope.to_folder marker = ⟨none, none⟩ := by
  obtain ⟨fromF, toF⟩ := scope
  cases fromF with
  | none => rfl
  | some a =>
    cases toF with
    | none => rfl
    | some b =>
      simp only [SearchScope.valid, pyTruthyOptStr, Bool.and_eq_false_iff,
        Bool.not_eq_false', beq_iff_eq] at h
      rcases h with h | h <;> simp [File.search, h]

end ECC

namespace ECC

/-! ### Claim C7 -/

/-- C7 counterexample: on a malformed database file,
`flags_from_database` raises (the `json.load` decode error propagates)
instead of returning a none/empty result, refuting the claim at the
input `DBFileContent.malformed`. -/
theorem c7_counterexample :
    flags_from_database .malformed = .error .jsonDecodeError ∧
      flags_from_database .malformed ≠ .ok none :=
  ⟨rfl, by decide⟩

/-- C7 (amended): a database file parsing to JSON `null` or to an empty
record array yields `None` — surfaced to the caller as the absence of a
usable database, hence an empty flag contribution — without raising,
while a malformed (unparseable) database raises a JSON decode error
that propagates to the caller. -/
theorem c7_database_error_behaviour (l : List String) (h : l.isEmpty = true) :
    flags_from_database (.val none) = .ok none ∧
      flags_from_database (.val (some l)) = .ok none ∧
      flags_from_database .malformed = .error .jsonDecodeError := by
  refine ⟨rfl, ?_, rfl⟩
  simp [flags_from_database, h]

/-- C7 witness: the amended behaviour evaluated at JSON null, the empty
record array, and a malformed file. -/
theorem c7_database_error_behaviour_witness :
    flags_from_database (.val none) = .ok none ∧
      flags_from_database (.val (some [])) = .ok none ∧
      flags_from_database .malformed = .error .jsonDecodeError :=
  c7_database_error_behaviour [] rfl

/-! ### Claim C8 -/

/-- C8: `flags_from_clang_file` on a file whose path is not bound
returns the empty list for either value of `separate_includes`; the
load error is signalled only by logging, never by raising (the result
is an `ok`, not an exception). -/
theorem c8_unloaded_file_empty (fs : FS) (ls : Option Nat) (separate_includes : Bool) :
    flags_from_clang_file fs ⟨none, ls⟩ separate_includes = .ok [] := rfl

/-! ### Claim C10 -/

/-- C10: constructing a `FlagsManager` with an invalid `SearchScope`
(one or both bounds unset) does not fail: the constructor only logs,
storing the invalid scope and the other configuration values, and a
subsequent `get_flags` call proceeds normally, its in-scope searches
finding nothing, returning the empty cached flag list with no write and
no exception. -/
theorem c10_invalid_scope (u : Bool) (strat : String) (scope : SearchScope)
    (h : scope.valid = false) :
    (FlagsManager.init u strat scope).search_scope = scope ∧
    (FlagsManager.init u strat scope).use_cmake = u ∧
    (FlagsManager.init u strat scope).flags_update_strategy = strat ∧
    ∀ (w : World) (sep : Bool),
      get_flags w (FlagsManager.init u strat scope) sep =
        .ok ⟨[], FlagsManager.init u strat scope, w, []⟩ := by
  refine ⟨rfl, rfl, rfl, fun w sep => ?_⟩
  have hs1 := search_invalid_scope w.fs FlagsManager.CMAKE_FILE_NAME scope (some "project") h
  have hs2 := search_invalid_scope w.fs FlagsManager.CLANG_COMPLETE_FILE_NAME scope none h
  cases u <;>
    simp [get_flags, step_cmake_search, step_cmake, cmake_pr, step_clang,
      step_clang_search, step_clang_reload, FlagsManager.init,
      File.loaded, File.was_modified, hs1, hs2]

/-- C10 witness: the theorem evaluated at a concrete invalid scope. -/
theorem c10_invalid_scope_witness :
    (FlagsManager.init true "ask" ⟨none, some "/a"⟩).search_scope = ⟨none, some "/a"⟩ ∧
    (FlagsManager.init true "ask" ⟨none, some "/a"⟩).use_cmake = true ∧
    (FlagsManager.init true "ask" ⟨none, some "/a"⟩).flags_update_strategy = "ask" ∧
    ∀ (w : World) (sep : Bool),
      get_flags w (FlagsManager.init true "ask" ⟨none, some "/a"⟩) sep =
        .ok ⟨[], FlagsManager.init true "ask" ⟨none, some "/a"⟩, w, []⟩ :=
  c10_invalid_scope true "ask" ⟨none, some "/a"⟩ (by decide)

end ECC

namespace ECC

/-! ### Claim C4 -/

/-- Behaviour of the reconciling write as the claim words it: with no
file at `file_path` the new flags are written directly regardless of
strategy; with a file present, `keep_old` leaves the file untouched,
`merge` writes the set union of the existing file's parsed flags
(parsed without include-separation) with the new flags, and `overwrite`
writes exactly the new flags. -/
def write_claimed (w : World) (new_flags : Finset String) (file_path strategy : String) :
    Except PyErr (World × List String) :=
  match w.fs file_path with
  | none => .ok (doWrite w new_flags file_path)
  | some _ =>
    if strategy = "keep_old" then .ok (w, [])
    else if strategy = "merge" then
      match flags_from_clang_file w.fs ⟨some file_path, none⟩ false with
      | .error e => .error e
      | .ok curr => .ok (doWrite w (curr.toFinset ∪ new_flags) file_path)
    else .ok (doWrite w new_flags file_path)

/-- C4: `write_flags_to_file` refines the claimed behaviour on the
no-file case and on the three concrete strategies. -/
theorem c4_write_strategies (w : World) (new_flags : Finset String) (file_path strat : String)
    (h : w.fs file_path = none ∨ strat = "keep_old" ∨ strat = "merge" ∨ strat = "overwrite") :
    write_flags_to_file w new_flags file_path strat = write_claimed w new_flags file_path strat := by
  cases hfs : w.fs file_path with
  | none => simp [write_flags_to_file, write_claimed, hfs]
  | some r =>
    rcases h with h | h | h | h
    · rw [h] at hfs; cases hfs
    · subst h
      simp [write_flags_to_file, write_claimed, hfs, get_flags_strategy]
    · subst h
      simp only [write_flags_to_file, write_claimed, hfs, get_flags_strategy]
      norm_num
      cases flags_from_clang_file w.fs ⟨some file_path, none⟩ false with
      | error e => rfl
      | ok curr => simp [Finset.union_comm]
    · subst h
      simp [write_flags_to_file, write_claimed, hfs, get_flags_strategy]

/-- C4 witness: the refinement evaluated on a concrete world with an
existing file and the `merge` strategy. -/
theorem c4_write_strategies_witness :
    write_flags_to_file
        ⟨fun q => if q = "/p/.clang_complete" then some ⟨"-DA\n", 0⟩ else none, 1,
          fun _ => none, DialogAnswer.cancel⟩
        {"-DB"} "/p/.clang_complete" "merge" =
      write_claimed
        ⟨fun q => if q = "/p/.clang_complete" then some ⟨"-DA\n", 0⟩ else none, 1,
          fun _ => none, DialogAnswer.cancel⟩
        {"-DB"} "/p/.clang_complete" "merge" :=
  c4_write_strategies _ _ _ _ (Or.inr (Or.inr (Or.inl rfl)))

end ECC

namespace ECC

/-! ### Claim C9 -/

/-- Precondition under which the database token loop is total: the
final token, if any, does not start with `-isystem`. -/
def noTrailingIsystem (parts : List String) : Bool :=
  match parts.getLast? with
  | none => true
  | some lastTok => !pyStartsWith lastTok "-isystem"

theorem noTrailingIsystem_tail {p : String} {rest : List String}
    (h : noTrailingIsystem (p :: rest) = true) : noTrailingIsystem rest = true := by
  cases rest with
  | nil => rfl
  | cons r rs =>
    simp only [noTrailingIsystem, List.getLast?_cons_cons] at h ⊢
    exact h

/-- One step of the database token loop, stated as an equation. -/
theorem db_loop_cons (part : String) (rest : List String) (acc : Finset String) :
    db_loop (part :: rest) acc =
      if pyStartsWith part "-I" || pyStartsWith part "-D" then
        db_loop rest (insert (pyStrip part) acc)
      else if pyStartsWith part "-isystem" then
        match rest with
        | [] => .error .indexError
        | nxt :: _ => db_loop rest (insert (pyStrip (part ++ " " ++ nxt)) acc)
      else db_loop rest acc := rfl

theorem db_loop_total (parts : List String) :
    ∀ acc : Finset String, noTrailingIsystem parts = true →
      ∃ s, db_loop parts acc = .ok s := by
  induction parts with
  | nil => exact fun acc _ => ⟨acc, rfl⟩
  | cons part rest ih =>
    intro acc h
    cases hID : (pyStartsWith part "-I" || pyStartsWith part "-D") with
    | true =>
      obtain ⟨s, hs⟩ := ih (insert (pyStrip part) acc) (noTrailingIsystem_tail h)
      refine ⟨s, ?_⟩
      rw [db_loop_cons, hID]
      exact hs
    | false =>
      cases hiso : pyStartsWith part "-isystem" with
      | true =>
        cases rest with
        | nil =>
          exfalso
          simp [noTrailingIsystem, hiso] at h
        | cons nxt rest' =>
          obtain ⟨s, hs⟩ :=
            ih (insert (pyStrip (part ++ " " ++ nxt)) acc) (noTrailingIsystem_tail h)
          refine ⟨s, ?_⟩
          rw [db_loop_cons, hID, hiso]
          exact hs
      | false =>
        obtain ⟨s, hs⟩ := ih acc (noTrailingIsystem_tail h)
        refine ⟨s, ?_⟩
        rw [db_loop_cons, hID, hiso]
        exact hs

theorem db_fold_total (cmds : List String) :
    ∀ acc : Finset String,
      (∀ cmd ∈ cmds, noTrailingIsystem (pySplitWs cmd) = true) →
      ∃ s, cmds.foldlM (fun acc cmd => db_loop (pySplitWs cmd) acc) acc = .ok s := by
  induction cmds with
  | nil => exact fun acc _ => ⟨acc, rfl⟩
  | cons c cs ih =>
    intro acc h
    obtain ⟨s1, hs1⟩ := db_loop_total (pySplitWs c) acc (h c (by simp))
    obtain ⟨s2, hs2⟩ := ih s1 (fun cmd hm => h cmd (by simp [hm]))
    refine ⟨s2, ?_⟩
    rw [List.foldlM_cons, hs1]
    simpa using hs2

/-- C9: `flags_from_database` reads the token following each `-isystem`
token without a bounds check: it is total on any nonempty database
whose commands never end in a token starting with `-isystem`, and on a
command violating this precondition (here `"clang -isystem"`) the
lookahead is out of range and the function fails with an `IndexError`
instead of returning a flag set. -/
theorem c9_isystem_lookahead (cmds : List String)
    (hne : cmds ≠ [])
    (h : ∀ cmd ∈ cmds, noTrailingIsystem (pySplitWs cmd) = true) :
    (∃ s, flags_from_database (.val (some cmds)) = .ok (some s)) ∧
      flags_from_database (.val (some ["clang -isystem"])) = .error .indexError := by
  refine ⟨?_, by decide⟩
  obtain ⟨s, hs⟩ := db_fold_total cmds ∅ h
  have hne' : cmds.isEmpty = false := by
    cases cmds with
    | nil => exact absurd rfl hne
    | cons c cs => rfl
  exact ⟨s, by simp [flags_from_database, hne', hs]⟩

/-- C9 witness: the theorem evaluated at a concrete well-formed
database. -/
theorem c9_isystem_lookahead_witness :
    (∃ s, flags_from_database (.val (some ["clang -Iinc"])) = .ok (some s)) ∧
      flags_from_database (.val (some ["clang -isystem"])) = .error .indexError :=
  c9_isystem_lookahead ["clang -Iinc"] (by decide) (by decide)

end ECC

namespace ECC

/-! ### Token and strip lemmas -/

theorem mem_of_getLast?_eq {l : List Char} {a : Char} (h : l.getLast? = some a) : a ∈ l := by
  have h2 : l.reverse.head? = some a := by rwa [List.head?_reverse]
  simpa using List.mem_of_mem_head? h2

theorem splitOnPred_ne_nil (p : Char → Bool) (d : List Char) : splitOnPred p d ≠ [] := by
  cases d with
  | nil => simp [splitOnPred]
  | cons c rest =>
    unfold splitOnPred
    by_cases hp : p c = true
    · simp [hp]
    · simp only [hp]
      cases splitOnPred p rest <;> simp

theorem splitOnPred_mem_false (p : Char → Bool) :
    ∀ (d : List Char), ∀ l ∈ splitOnPred p d, ∀ c ∈ l, p c = false := by
  intro d
  induction d with
  | nil =>
    intro l hl c hc
    simp [splitOnPred] at hl
    subst hl
    cases hc
  | cons a rest ih =>
    intro l hl c hc
    by_cases hp : p a = true
    · rw [splitOnPred, if_pos hp] at hl
      rcases List.mem_cons.mp hl with rfl | hl
      · cases hc
      · exact ih l hl c hc
    · rw [splitOnPred, if_neg hp] at hl
      cases hsp : splitOnPred p rest with
      | nil => exact absurd hsp (splitOnPred_ne_nil p rest)
      | cons l0 ls =>
        rw [hsp] at hl
        rcases List.mem_cons.mp hl with rfl | hl
        · rcases List.mem_cons.mp hc with rfl | hc
          · simpa using hp
          · exact ih l0 (hsp ▸ List.mem_cons_self l0 ls) c hc
        · exact ih l (hsp ▸ List.mem_cons_of_mem l0 hl) c hc

theorem pySplitWs_token {s t : String} (ht : t ∈ pySplitWs s) :
    t.data ≠ [] ∧ ∀ c ∈ t.data, c.isWhitespace = false := by
  unfold pySplitWs at ht
  simp only [List.mem_map, List.mem_filter, decide_eq_true_eq] at ht
  obtain ⟨l, ⟨hl, hne⟩, rfl⟩ := ht
  exact ⟨hne, fun c hc => splitOnPred_mem_false _ _ l hl c hc⟩

theorem dropWhile_eq_self_of_head {p : Char → Bool} :
    ∀ {d : List Char}, (∀ c, d.head? = some c → p c = false) → d.dropWhile p = d
  | [], _ => rfl
  | c :: cs, h => by
    have := h c rfl
    simp [List.dropWhile, this]

theorem pyStripData_eq_self {d : List Char}
    (h1 : ∀ c, d.head? = some c → c.isWhitespace = false)
    (h2 : ∀ c, d.getLast? = some c → c.isWhitespace = false) :
    pyStripData d = d := by
  unfold pyStripData
  rw [dropWhile_eq_self_of_head h1]
  rw [dropWhile_eq_self_of_head (fun c hc => h2 c (by rwa [← List.head?_reverse]))]
  exact List.reverse_reverse d

theorem pyStrip_token {t : String} (hne : t.data ≠ [])
    (hws : ∀ c ∈ t.data, c.isWhitespace = false) : pyStrip t = t := by
  obtain ⟨d⟩ := t
  exact congrArg String.mk
    (pyStripData_eq_self (fun c hc => hws c (List.mem_of_mem_head? hc))
      (fun c hc => hws c (mem_of_getLast?_eq hc)))

theorem pyStrip_combined {a b : String} (ha : a.data ≠ [])
    (hwa : ∀ c ∈ a.data, c.isWhitespace = false) (hb : b.data ≠ [])
    (hwb : ∀ c ∈ b.data, c.isWhitespace = false) :
    pyStrip (a ++ " " ++ b) = a ++ " " ++ b := by
  obtain ⟨da⟩ := a
  obtain ⟨db⟩ := b
  have hdata : ((⟨da⟩ : String) ++ " " ++ (⟨db⟩ : String)).data = (da ++ [' ']) ++ db := by
    rw [String.data_append, String.data_append]
  unfold pyStrip
  rw [hdata]
  refine congrArg String.mk ?_ |>.trans (congrArg String.mk hdata.symm) |>.trans ?_
  · exact pyStripData_eq_self
      (fun c hc => by
        rw [List.head?_append_of_ne_nil _ (by simp)] at hc
        rw [List.head?_append_of_ne_nil _ ha] at hc
        exact hwa c (List.mem_of_mem_head? hc))
      (fun c hc => by
        rw [List.getLast?_append_of_ne_nil _ (by simpa using hb)] at hc
        exact hwb c (mem_of_getLast?_eq hc))
  · obtain ⟨d⟩ := (⟨da⟩ : String) ++ " " ++ (⟨db⟩ : String)
    rfl

end ECC

namespace ECC

/-! ### Claim C5 -/

theorem listPrefixB_iff {p : List Char} :
    ∀ {d : List Char}, listPrefixB p d = true ↔ ∃ t, d = p ++ t := by
  induction p with
  | nil => intro d; simp [listPrefixB]
  | cons a as ih =>
    intro d
    cases d with
    | nil => simp [listPrefixB]
    | cons b bs =>
      simp only [listPrefixB, Bool.and_eq_true, decide_eq_true_eq, ih, List.cons_append]
      constructor
      · rintro ⟨rfl, t, rfl⟩
        exact ⟨t, rfl⟩
      · rintro ⟨t, ht⟩
        injection ht with h1 h2
        exact ⟨h1.symm, t, h2⟩

theorem isystem_not_ID {p : String} (h : pyStartsWith p "-isystem" = true) :
    (pyStartsWith p "-I" || pyStartsWith p "-D") = false := by
  obtain ⟨t, ht⟩ := listPrefixB_iff.mp h
  unfold pyStartsWith
  rw [ht]
  rfl

theorem ID_not_isystem {p : String} (h : (pyStartsWith p "-I" || pyStartsWith p "-D") = true) :
    pyStartsWith p "-isystem" = false := by
  rcases Bool.or_eq_true_iff.mp h with hp | hp <;>
    · obtain ⟨t, ht⟩ := listPrefixB_iff.mp hp
      unfold pyStartsWith
      rw [ht]
      rfl

/-- Flag set described by the claim for one tokenised command string:
tokens starting with `-I` or `-D` kept verbatim, every token starting
with `-isystem` combined with its immediate successor into one flag,
all other tokens dropped. -/
def claimedFlags (parts : List String) : Finset String :=
  (parts.filter fun p => pyStartsWith p "-I" || pyStartsWith p "-D").toFinset ∪
    (((parts.zip parts.tail).filter fun pr => pyStartsWith pr.1 "-isystem").map
      fun pr => pr.1 ++ " " ++ pr.2).toFinset

theorem claimedFlags_cons_ID {part : String} {rest : List String}
    (hID : (pyStartsWith part "-I" || pyStartsWith part "-D") = true) :
    claimedFlags (part :: rest) = insert part (claimedFlags rest) := by
  have hiso := ID_not_isystem hID
  cases rest with
  | nil => simp [claimedFlags, List.filter_cons, hID]
  | cons r rs =>
    simp [claimedFlags, List.filter_cons, List.zip_cons_cons, hID, hiso,
      Finset.insert_union]

theorem claimedFlags_cons_isystem {part nxt : String} {rest' : List String}
    (hID : (pyStartsWith part "-I" || pyStartsWith part "-D") = false)
    (hiso : pyStartsWith part "-isystem" = true) :
    claimedFlags (part :: nxt :: rest') =
      insert (part ++ " " ++ nxt) (claimedFlags (nxt :: rest')) := by
  simp [claimedFlags, List.filter_cons, List.zip_cons_cons, hID, hiso,
    Finset.union_insert]

theorem claimedFlags_cons_other {part : String} {rest : List String}
    (hID : (pyStartsWith part "-I" || pyStartsWith part "-D") = false)
    (hiso : pyStartsWith part "-isystem" = false) :
    claimedFlags (part :: rest) = claimedFlags rest := by
  cases rest with
  | nil => simp [claimedFlags, List.filter_cons, hID]
  | cons r rs =>
    simp [claimedFlags, List.filter_cons, List.zip_cons_cons, hID, hiso]

theorem db_loop_eq_claimed :
    ∀ (parts : List String) (acc : Finset String),
      (∀ t ∈ parts, t.data ≠ [] ∧ ∀ c ∈ t.data, c.isWhitespace = false) →
      noTrailingIsystem parts = true →
      db_loop parts acc = .ok (claimedFlags parts ∪ acc) := by
  intro parts
  induction parts with
  | nil =>
    intro acc _ _
    simp [db_loop, claimedFlags]
  | cons part rest ih =>
    intro acc htok h
    have hpart := htok part (List.mem_cons_self part rest)
    have htok' : ∀ t ∈ rest, t.data ≠ [] ∧ ∀ c ∈ t.data, c.isWhitespace = false :=
      fun t ht => htok t (List.mem_cons_of_mem part ht)
    cases hID : (pyStartsWith part "-I" || pyStartsWith part "-D") with
    | true =>
      rw [db_loop_cons, hID]
      show db_loop rest (insert (pyStrip part) acc) = _
      rw [pyStrip_token hpart.1 hpart.2,
        ih (insert part acc) htok' (noTrailingIsystem_tail h),
        claimedFlags_cons_ID hID, Finset.union_insert, Finset.insert_union]
    | false =>
      cases hiso : pyStartsWith part "-isystem" with
      | true =>
        cases rest with
        | nil =>
          exfalso
          simp [noTrailingIsystem, hiso] at h
        | cons nxt rest' =>
          have hnxt := htok' nxt (List.mem_cons_self nxt rest')
          rw [db_loop_cons, hID, hiso]
          show db_loop (nxt :: rest') (insert (pyStrip (part ++ " " ++ nxt)) acc) = _
          rw [pyStrip_combined hpart.1 hpart.2 hnxt.1 hnxt.2,
            ih (insert (part ++ " " ++ nxt) acc) htok' (noTrailingIsystem_tail h),
            claimedFlags_cons_isystem hID hiso, Finset.union_insert, Finset.insert_union]
      | false =>
        rw [db_loop_cons, hID, hiso]
        show db_loop rest acc = _
        rw [ih acc htok' (noTrailingIsystem_tail h), claimedFlags_cons_other hID hiso]

theorem db_fold_eq_claimed (cmds : List String) :
    ∀ acc : Finset String,
      (∀ cmd ∈ cmds, noTrailingIsystem (pySplitWs cmd) = true) →
      cmds.foldlM (fun acc cmd => db_loop (pySplitWs cmd) acc) acc =
        .ok (cmds.foldl (fun a cmd => claimedFlags (pySplitWs (cmd)) ∪ a) acc) := by
  induction cmds with
  | nil => intro acc _; rfl
  | cons c cs ih =>
    intro acc h
    rw [List.foldlM_cons,
      db_loop_eq_claimed (pySplitWs c) acc (fun t ht => pySplitWs_token ht) (h c (by simp))]
    simpa using ih _ (fun cmd hm => h cmd (by simp [hm]))

/-- C5: on every database whose command strings never end in an
`-isystem` token, `flags_from_database` returns exactly the claimed
set for each record — the whitespace-separated tokens starting with
`-I` or `-D` kept verbatim, each token starting with `-isystem`
combined with the immediately following token, everything else dropped
— and in particular the command `clang -Iinc -DFOO=1 -isystem /usr/x
-O2` yields exactly the three flags of the claim, with `-O2` dropped. -/
theorem c5_database_extraction (cmds : List String) (hne : cmds ≠ [])
    (h : ∀ cmd ∈ cmds, noTrailingIsystem (pySplitWs cmd) = true) :
    flags_from_database (.val (some cmds)) =
      .ok (some (cmds.foldl (fun a cmd => claimedFlags (pySplitWs cmd) ∪ a) ∅)) ∧
      flags_from_database (.val (some ["clang -Iinc -DFOO=1 -isystem /usr/x -O2"]))
        = .ok (some {"-Iinc", "-DFOO=1", "-isystem /usr/x"}) := by
  refine ⟨?_, by decide⟩
  have hne' : cmds.isEmpty = false := by
    cases cmds with
    | nil => exact absurd rfl hne
    | cons c cs => rfl
  simp [flags_from_database, hne', db_fold_eq_claimed cmds ∅ h]

/-- C5 witness: the characterisation evaluated on the claim's concrete
command string. -/
theorem c5_database_extraction_witness :
    flags_from_database (.val (some ["clang -Iinc -DFOO=1 -isystem /usr/x -O2"])) =
      .ok (some (["clang -Iinc -DFOO=1 -isystem /usr/x -O2"].foldl
        (fun a cmd => claimedFlags (pySplitWs cmd) ∪ a) ∅)) ∧
      flags_from_database (.val (some ["clang -Iinc -DFOO=1 -isystem /usr/x -O2"]))
        = .ok (some {"-Iinc", "-DFOO=1", "-isystem /usr/x"}) :=
  c5_database_extraction ["clang -Iinc -DFOO=1 -isystem /usr/x -O2"] (by decide) (by decide)

end ECC

namespace ECC

/-! ### Claim C6 -/

theorem listPrefixB_self_append : ∀ (p t : List Char), listPrefixB p (p ++ t) = true := by
  intro p t
  induction p with
  | nil => rfl
  | cons a as ih => simp [listPrefixB, ih]

/-- One step of `pyReadlinesAux`, stated as an equation. -/
theorem pyReadlinesAux_cons (c : Char) (rest acc : List Char) :
    pyReadlinesAux (c :: rest) acc =
      if c = '\n' then (acc.reverse ++ ['\n']) :: pyReadlinesAux rest []
      else pyReadlinesAux rest (c :: acc) := rfl

theorem pyReadlinesAux_no_newline :
    ∀ (d acc : List Char), (∀ c ∈ d, c ≠ '\n') → (acc ≠ [] ∨ d ≠ []) →
      pyReadlinesAux d acc = [acc.reverse ++ d] := by
  intro d
  induction d with
  | nil =>
    intro acc _ hne
    cases acc with
    | nil =>
      rcases hne with h' | h' <;> exact absurd rfl h'
    | cons a as => simp [pyReadlinesAux]
  | cons c rest ih =>
    intro acc h hne
    have hc : c ≠ '\n' := h c (List.mem_cons_self c rest)
    rw [pyReadlinesAux_cons, if_neg hc,
      ih (c :: acc) (fun x hx => h x (List.mem_cons_of_mem c hx)) (Or.inl (by simp))]
    simp

theorem pyReadlines_single {s : String} (hne : s.data ≠ [])
    (h : ∀ c ∈ s.data, c ≠ '\n') : pyReadlines s = [s] := by
  obtain ⟨d⟩ := s
  unfold pyReadlines
  rw [pyReadlinesAux_no_newline d [] h (Or.inr hne)]
  simp

theorem line_I_not_D (r : String) : pyStartsWith ("-I" ++ r) "-D" = false := by
  unfold pyStartsWith
  rw [String.data_append]
  rfl

theorem line_I_is_I (r : String) : pyStartsWith ("-I" ++ r) "-I" = true := by
  unfold pyStartsWith
  rw [String.data_append]
  exact listPrefixB_self_append _ _

theorem drop2_I (r : String) : pyDrop 2 ("-I" ++ r) = r := by
  obtain ⟨d⟩ := r
  unfold pyDrop
  rw [String.data_append]
  rfl

theorem line_isys_not_D (r : String) : pyStartsWith ("-isystem" ++ r) "-D" = false := by
  unfold pyStartsWith
  rw [String.data_append]
  rfl

theorem line_isys_not_I (r : String) : pyStartsWith ("-isystem" ++ r) "-I" = false := by
  unfold pyStartsWith
  rw [String.data_append]
  rfl

theorem line_isys_is_isys (r : String) : pyStartsWith ("-isystem" ++ r) "-isystem" = true := by
  unfold pyStartsWith
  rw [String.data_append]
  exact listPrefixB_self_append _ _

theorem drop8_isys (r : String) : pyDrop 8 ("-isystem" ++ r) = r := by
  obtain ⟨d⟩ := r
  unfold pyDrop
  rw [String.data_append]
  rfl

/-- Evaluation of `flags_from_clang_file` on a bound path present on
disk. -/
theorem flags_from_clang_file_some {fs : FS} {P : String} {ls : Option Nat} {rec : FileRec}
    (hfs : fs P = some rec) (sep : Bool) :
    flags_from_clang_file fs ⟨some P, ls⟩ sep =
      .ok ((pyReadlines rec.content).foldl (clang_line sep (dirname P)) []) := by
  show (match fs P with
    | none => (Except.error PyErr.fileNotFoundError : Except PyErr (List String))
    | some r => Except.ok ((pyReadlines r.content).foldl (clang_line sep (dirname P)) [])) = _
  rw [hfs]

theorem clang_line_I (sep : Bool) (folder : String) (flags : List String) (r : String) :
    clang_line sep folder flags ("-I" ++ r) =
      flags ++ [maskFmt sep "-I"
        (if posixIsAbs (pyStrip r) = true then normpath (pyStrip r)
         else pathJoin folder (pyStrip r))] := by
  unfold clang_line
  rw [line_I_not_D, line_I_is_I, drop2_I]
  cases habs : posixIsAbs (pyStrip r) <;> simp [habs]

theorem clang_line_isys (sep : Bool) (folder : String) (flags : List String) (r : String) :
    clang_line sep folder flags ("-isystem" ++ r) =
      flags ++ [pyStrip (maskFmt sep "-isystem"
        (if posixIsAbs (pyStrip r) = true then normpath (pyStrip r)
         else pathJoin folder (pyStrip r)))] := by
  unfold clang_line
  rw [line_isys_not_D, line_isys_not_I, line_isys_is_isys, drop8_isys]
  cases habs : posixIsAbs (pyStrip r) <;> simp [habs]

/-- C6: in `flags_from_clang_file` a line beginning `-I` (and
analogously `-isystem`) treats the remainder as a path: an absolute
path is normalised as-is, a relative one is resolved against the
directory containing the flag-list file itself; in particular a
flag-list file at `/proj/.flags` containing `-Iinclude` parses to
`-I/proj/include`, and one containing `-I/abs/include` parses to
`-I/abs/include` unchanged. -/
theorem c6_include_path_resolution (fs : FS) (P r : String) (ls : Option Nat)
    (rec : FileRec) (sep : Bool) (hfs : fs P = some rec)
    (hnl : ∀ c ∈ r.data, c ≠ '\n') :
    (rec.content = "-I" ++ r →
      flags_from_clang_file fs ⟨some P, ls⟩ sep =
        .ok [maskFmt sep "-I"
          (if posixIsAbs (pyStrip r) = true then normpath (pyStrip r)
           else pathJoin (dirname P) (pyStrip r))]) ∧
    (rec.content = "-isystem" ++ r →
      flags_from_clang_file fs ⟨some P, ls⟩ sep =
        .ok [pyStrip (maskFmt sep "-isystem"
          (if posixIsAbs (pyStrip r) = true then normpath (pyStrip r)
           else pathJoin (dirname P) (pyStrip r)))]) ∧
    flags_from_clang_file (fun q => if q = "/proj/.flags" then some ⟨"-Iinclude", 0⟩ else none)
      ⟨some "/proj/.flags", none⟩ false = .ok ["-I/proj/include"] ∧
    flags_from_clang_file (fun q => if q = "/proj/.flags" then some ⟨"-I/abs/include", 0⟩ else none)
      ⟨some "/proj/.flags", none⟩ false = .ok ["-I/abs/include"] := by
  refine ⟨?_, ?_, by decide, by decide⟩
  · intro hc
    have hne : ("-I" ++ r).data ≠ [] := by
      rw [String.data_append]
      simp
    have hnl' : ∀ c ∈ ("-I" ++ r).data, c ≠ '\n' := by
      rw [String.data_append]
      intro c hcm
      rcases List.mem_append.mp hcm with h | h
      · fin_cases h <;> decide
      · exact hnl c h
    rw [flags_from_clang_file_some hfs sep, hc, pyReadlines_single hne hnl',
      List.foldl_cons, List.foldl_nil, clang_line_I, List.nil_append]
  · intro hc
    have hne : ("-isystem" ++ r).data ≠ [] := by
      rw [String.data_append]
      simp
    have hnl' : ∀ c ∈ ("-isystem" ++ r).data, c ≠ '\n' := by
      rw [String.data_append]
      intro c hcm
      rcases List.mem_append.mp hcm with h | h
      · fin_cases h <;> decide
      · exact hnl c h
    rw [flags_from_clang_file_some hfs sep, hc, pyReadlines_single hne hnl',
      List.foldl_cons, List.foldl_nil, clang_line_isys, List.nil_append]

/-- C6 witness: the general statement evaluated at a relative include
under `/proj/.flags`. -/
theorem c6_include_path_resolution_witness :
    ((⟨"-Iinclude", 0⟩ : FileRec).content = "-I" ++ "include" →
      flags_from_clang_file
          (fun q => if q = "/proj/.flags" then some ⟨"-Iinclude", 0⟩ else none)
          ⟨some "/proj/.flags", none⟩ false =
        .ok [maskFmt false "-I"
          (if posixIsAbs (pyStrip "include") = true then normpath (pyStrip "include")
           else pathJoin (dirname "/proj/.flags") (pyStrip "include"))]) ∧
    ((⟨"-Iinclude", 0⟩ : FileRec).content = "-isystem" ++ "include" →
      flags_from_clang_file
          (fun q => if q = "/proj/.flags" then some ⟨"-Iinclude", 0⟩ else none)
          ⟨some "/proj/.flags", none⟩ false =
        .ok [pyStrip (maskFmt false "-isystem"
          (if posixIsAbs (pyStrip "include") = true then normpath (pyStrip "include")
           else pathJoin (dirname "/proj/.flags") (pyStrip "include")))]) ∧
    flags_from_clang_file (fun q => if q = "/proj/.flags" then some ⟨"-Iinclude", 0⟩ else none)
      ⟨some "/proj/.flags", none⟩ false = .ok ["-I/proj/include"] ∧
    flags_from_clang_file (fun q => if q = "/proj/.flags" then some ⟨"-I/abs/include", 0⟩ else none)
      ⟨some "/proj/.flags", none⟩ false = .ok ["-I/abs/include"] :=
  c6_include_path_resolution
    (fun q => if q = "/proj/.flags" then some ⟨"-Iinclude", 0⟩ else none)
    "/proj/.flags" "include" none ⟨"-Iinclude", 0⟩ false (by decide) (by decide)

end ECC

namespace ECC

/-! ### Claim C3 -/

/-- C3 counterexample: writing the flag set containing the relative
include `-Iinc` with the `overwrite` strategy and parsing the file back
(non-include-separated) yields `-I/proj/inc` — the relative path has
been resolved against the file's directory — so the parsed set differs
from the original. -/
theorem c3_counterexample :
    (match write_flags_to_file ⟨fun _ => none, 1, fun _ => none, .cancel⟩
        {"-Iinc"} "/proj/.clang_complete" "overwrite" with
     | .ok (w2, _) =>
       (match flags_from_clang_file w2.fs ⟨some "/proj/.clang_complete", none⟩ false with
        | .ok l => some l.toFinset
        | .error _ => none)
     | .error _ => none) = some {"-I/proj/inc"} ∧
      ({"-I/proj/inc"} : Finset String) ≠ {"-Iinc"} :=
  ⟨by decide, by decide⟩

theorem listPrefixB_append_right {p d : List Char} (h : listPrefixB p d = true)
    (e : List Char) : listPrefixB p (d ++ e) = true := by
  obtain ⟨t, rfl⟩ := listPrefixB_iff.mp h
  rw [List.append_assoc]
  exact listPrefixB_self_append _ _

theorem strip_fixed_last {d : List Char} (hfix : pyStripData d = d) :
    ∀ c, d.getLast? = some c → c.isWhitespace = false := by
  intro c hl
  by_contra hws
  rw [Bool.not_eq_false] at hws
  have hlen : (pyStripData d).length < d.length := by
    unfold pyStripData
    rcases Nat.lt_or_ge (d.dropWhile Char.isWhitespace).length d.length with hlt | hge
    · calc ((((d.dropWhile Char.isWhitespace).reverse.dropWhile Char.isWhitespace)).reverse).length
          = ((d.dropWhile Char.isWhitespace).reverse.dropWhile Char.isWhitespace).length := by
            rw [List.length_reverse]
        _ ≤ (d.dropWhile Char.isWhitespace).reverse.length :=
            (List.dropWhile_suffix _).length_le
        _ = (d.dropWhile Char.isWhitespace).length := by rw [List.length_reverse]
        _ < d.length := hlt
    · have heq : d.dropWhile Char.isWhitespace = d :=
        (List.dropWhile_suffix _).eq_of_length
          (Nat.le_antisymm (List.dropWhile_suffix _).length_le hge)
      rw [heq]
      cases hrev : d.reverse with
      | nil =>
        exfalso
        have : d = [] := by simpa using congrArg List.reverse hrev
        rw [this] at hl
        cases hl
      | cons c0 t' =>
        have hc0 : c0 = c := by
          have h3 := List.head?_reverse d
          rw [hrev] at h3
          simp only [List.head?_cons] at h3
          rw [hl] at h3
          exact Option.some_inj.mp h3
        subst hc0
        calc ((List.dropWhile Char.isWhitespace (c0 :: t')).reverse).length
            = (List.dropWhile Char.isWhitespace (c0 :: t')).length := by
              rw [List.length_reverse]
          _ = (List.dropWhile Char.isWhitespace t').length := by
              rw [List.dropWhile_cons, if_pos hws]
          _ ≤ t'.length := (List.dropWhile_suffix _).length_le
          _ < (c0 :: t').length := by simp
          _ = d.length := by rw [← hrev, List.length_reverse]
  rw [hfix] at hlen
  exact Nat.lt_irrefl _ hlen

theorem pyStrip_append_newline (f : String)
    (h1 : ∀ c, f.data.head? = some c → c.isWhitespace = false)
    (h2 : ∀ c, f.data.getLast? = some c → c.isWhitespace = false) :
    pyStrip (f ++ "\n") = f := by
  obtain ⟨d⟩ := f
  cases d with
  | nil => decide
  | cons c0 t =>
    show (⟨pyStripData ((c0 :: t) ++ ['\n'])⟩ : String) = ⟨c0 :: t⟩
    refine congrArg String.mk ?_
    unfold pyStripData
    have hinner : List.dropWhile Char.isWhitespace ((c0 :: t) ++ ['\n']) = (c0 :: t) ++ ['\n'] :=
      dropWhile_eq_self_of_head (fun c hc => by
        rw [List.cons_append, List.head?_cons] at hc
        injection hc with hc'
        subst hc'
        exact h1 c0 rfl)
    rw [hinner, List.reverse_append]
    show (List.dropWhile Char.isWhitespace ((c0 :: t).reverse)).reverse = c0 :: t
    rw [dropWhile_eq_self_of_head (fun c hc => h2 c (by rwa [← List.head?_reverse]))]
    exact List.reverse_reverse _

/-- Flags that survive the write/parse round trip unchanged: plain
defines, and include flags with an absolute already-normal path, in
both cases strip-fixed and free of newline or carriage-return
characters. -/
def roundTripFlag (f : String) : Bool :=
  (pyStartsWith f "-D" ||
    (pyStartsWith f "-I" && posixIsAbs (pyDrop 2 f) && (normpath (pyDrop 2 f) == pyDrop 2 f))) &&
    (pyStrip f == f) && f.data.all (fun c => !(c = '\n' || c = '\r'))

theorem roundTripFlag_no_newline {f : String} (hf : roundTripFlag f = true) :
    ∀ c ∈ f.data, c ≠ '\n' := by
  intro c hc hceq
  have := (Bool.and_eq_true _ _).mp hf |>.2
  rw [List.all_eq_true] at this
  have := this c hc
  subst hceq
  simp at this

theorem clang_line_roundTrip (folder : String) (flags : List String) (f : String)
    (hf : roundTripFlag f = true) :
    clang_line false folder flags (f ++ "\n") = flags ++ [f] := by
  obtain ⟨⟨hshape, hstripb⟩, _⟩ :
      ((pyStartsWith f "-D" ||
          (pyStartsWith f "-I" && posixIsAbs (pyDrop 2 f) &&
            (normpath (pyDrop 2 f) == pyDrop 2 f))) = true ∧
        (pyStrip f == f) = true) ∧
        (f.data.all (fun c => !(c = '\n' || c = '\r'))) = true := by
    have h1 := (Bool.and_eq_true _ _).mp hf
    exact ⟨(Bool.and_eq_true _ _).mp h1.1, h1.2⟩
  have hstrip : pyStrip f = f := by simpa using hstripb
  have hstripd : pyStripData f.data = f.data := congrArg String.data hstrip
  have hlast := strip_fixed_last hstripd
  rcases Bool.or_eq_true_iff.mp hshape with hD | hI
  · obtain ⟨t, ht⟩ := listPrefixB_iff.mp hD
    have hhead : ∀ c, f.data.head? = some c → c.isWhitespace = false := by
      intro c hc
      rw [ht] at hc
      simp only [List.head?_cons] at hc
      cases hc
      decide
    unfold clang_line
    rw [show pyStartsWith (f ++ "\n") "-D" = true from by
      unfold pyStartsWith
      rw [String.data_append]
      exact listPrefixB_append_right hD _]
    rw [if_pos rfl, pyStrip_append_newline f hhead hlast]
  · obtain ⟨hIp, habs, hnorm⟩ :
        pyStartsWith f "-I" = true ∧ posixIsAbs (pyDrop 2 f) = true ∧
          (normpath (pyDrop 2 f) == pyDrop 2 f) = true := by
      have h1 := (Bool.and_eq_true _ _).mp hI
      exact ⟨(Bool.and_eq_true _ _).mp h1.1 |>.1, (Bool.and_eq_true _ _).mp h1.1 |>.2, h1.2⟩
    obtain ⟨t, ht⟩ := listPrefixB_iff.mp hIp
    have hfI : f = "-I" ++ (⟨t⟩ : String) := by
      obtain ⟨d⟩ := f
      simp only at ht
      rw [ht]
      rfl
    have hdrop : pyDrop 2 f = (⟨t⟩ : String) := by
      rw [hfI, drop2_I]
    have htabs : posixIsAbs (⟨t⟩ : String) = true := by rwa [hdrop] at habs
    have hthead : t.head? = some '/' := by
      unfold posixIsAbs pyStartsWith at htabs
      obtain ⟨u, hu⟩ := listPrefixB_iff.mp htabs
      show t.head? = _
      have : t = '/' :: u := hu
      rw [this]
      rfl
    have htne : t ≠ [] := by
      intro hteq
      rw [hteq] at hthead
      cases hthead
    have hstripT : pyStrip ((⟨t⟩ : String) ++ "\n") = (⟨t⟩ : String) := by
      refine pyStrip_append_newline _ (fun c hc => ?_) (fun c hc => ?_)
      · show c.isWhitespace = false
        rw [show (⟨t⟩ : String).data = t from rfl, hthead] at hc
        cases hc
        decide
      · refine hlast c ?_
        rw [ht, List.getLast?_append_of_ne_nil _ htne]
        exact hc
    rw [hfI, String.append_assoc, clang_line_I, hstripT, htabs, if_pos rfl]
    have : normpath (⟨t⟩ : String) = (⟨t⟩ : String) := by
      rw [hdrop] at hnorm
      simpa using hnorm
    rw [this]
    rfl

theorem foldl_clang_roundTrip (folder : String) :
    ∀ (L : List String), (∀ f ∈ L, roundTripFlag f = true) →
      ∀ flags, (L.map (fun x => x ++ "\n")).foldl (clang_line false folder) flags = flags ++ L := by
  intro L
  induction L with
  | nil => intro _ flags; simp
  | cons f L' ih =>
    intro hall flags
    rw [List.map_cons, List.foldl_cons,
      clang_line_roundTrip folder flags f (hall f (List.mem_cons_self f L')),
      ih (fun g hg => hall g (List.mem_cons_of_mem f hg)) (flags ++ [f])]
    simp

end ECC

namespace ECC

theorem pyReadlinesAux_line :
    ∀ (d : List Char), (∀ c ∈ d, c ≠ '\n') → ∀ (acc rest : List Char),
      pyReadlinesAux (d ++ '\n' :: rest) acc =
        ((acc.reverse ++ d) ++ ['\n']) :: pyReadlinesAux rest [] := by
  intro d
  induction d with
  | nil =>
    intro _ acc rest
    rw [List.nil_append, pyReadlinesAux_cons, if_pos rfl]
    simp
  | cons c cs ih =>
    intro h acc rest
    have hc : c ≠ '\n' := h c (List.mem_cons_self c cs)
    rw [List.cons_append, pyReadlinesAux_cons, if_neg hc,
      ih (fun x hx => h x (List.mem_cons_of_mem c hx)) (c :: acc) rest]
    simp

theorem pyReadlinesAux_join :
    ∀ (ds : List (List Char)), ds ≠ [] → (∀ d ∈ ds, ∀ c ∈ d, c ≠ '\n') →
      pyReadlinesAux (joinLinesChars ds ++ ['\n']) [] = ds.map (fun d => d ++ ['\n']) := by
  intro ds
  induction ds with
  | nil => intro hne _; exact absurd rfl hne
  | cons d ds' ih =>
    intro _ h
    cases ds' with
    | nil =>
      show pyReadlinesAux (d ++ '\n' :: []) [] = [d ++ ['\n']]
      rw [pyReadlinesAux_line d (h d (List.mem_cons_self d [])) [] []]
      rfl
    | cons d2 ds'' =>
      show pyReadlinesAux ((d ++ '\n' :: joinLinesChars (d2 :: ds'')) ++ ['\n']) [] = _
      rw [List.append_assoc, List.cons_append]
      rw [pyReadlinesAux_line d (h d (List.mem_cons_self d _)) []
        (joinLinesChars (d2 :: ds'') ++ ['\n'])]
      rw [ih (by simp) (fun x hx => h x (List.mem_cons_of_mem d hx))]
      simp

theorem mk_append_newline (x : String) :
    (⟨x.data ++ ['\n']⟩ : String) = x ++ "\n" := by
  obtain ⟨d⟩ := x
  rfl

theorem pyReadlines_join (L : List String) (hne : L ≠ [])
    (hnl : ∀ x ∈ L, ∀ c ∈ x.data, c ≠ '\n') :
    pyReadlines (joinLines L ++ "\n") = L.map (fun x => x ++ "\n") := by
  unfold pyReadlines
  have hd : (joinLines L ++ "\n").data = joinLinesChars (L.map String.data) ++ ['\n'] := by
    rw [String.data_append]
    rfl
  rw [hd, pyReadlinesAux_join (L.map String.data) (by simpa using hne)
    (fun d hd2 c hc => by
      obtain ⟨x, hx, rfl⟩ := List.mem_map.mp hd2
      exact hnl x hx c hc)]
  rw [List.map_map, List.map_map]
  refine List.map_congr_left ?_
  intro x _
  show (⟨x.data ++ ['\n']⟩ : String) = x ++ "\n"
  exact mk_append_newline x

theorem msetSortedList_toFinset (s : Finset String) :
    (msetSortedList s.val).toFinset = s := by
  ext a
  rw [List.mem_toFinset, ← Multiset.mem_coe, msetSortedList_coe]
  exact Iff.rfl

/-- C3 (amended): for flag sets whose members are plain `-D` defines or
`-I` flags with an absolute, already-normalised path (strip-fixed and
free of newline characters), writing with the `overwrite` strategy and
re-parsing without include-separation gives back exactly the original
set; for other flags the round trip can change the set, as the
counterexample shows. -/
theorem c3_roundtrip_amended (w : World) (s : Finset String) (fp : String)
    (hgood : ∀ f ∈ s, roundTripFlag f = true) :
    ∃ w2 : World, write_flags_to_file w s fp "overwrite" = .ok (w2, [fp]) ∧
      ∃ l, flags_from_clang_file w2.fs ⟨some fp, none⟩ false = .ok l ∧ l.toFinset = s := by
  refine ⟨{ w with
      fs := fun q => if q = fp then some ⟨flagsText s, w.clock⟩ else w.fs q
      clock := w.clock + 1 }, ?_, ?_⟩
  · cases hfs : w.fs fp with
    | none => simp [write_flags_to_file, hfs, doWrite]
    | some r => simp [write_flags_to_file, hfs, get_flags_strategy, doWrite]
  · have hfs2 : (fun q => if q = fp then some (⟨flagsText s, w.clock⟩ : FileRec)
        else w.fs q) fp = some ⟨flagsText s, w.clock⟩ := by simp
    rw [flags_from_clang_file_some hfs2 false]
    cases hL : msetSortedList s.val with
    | nil =>
      have hs0 : s = ∅ := by
        have := msetSortedList_coe s.val
        rw [hL] at this
        exact Finset.val_inj.mp this.symm
      subst hs0
      refine ⟨[], ?_, by decide⟩
      show Except.ok ((pyReadlines (flagsText ∅)).foldl (clang_line false (dirname fp)) []) = _
      have : flagsText (∅ : Finset String) = "\n" := rfl
      rw [this]
      have hrl : pyReadlines "\n" = ["\n"] := by decide
      rw [hrl, List.foldl_cons, List.foldl_nil]
      rfl
    | cons f0 L' =>
      have hmem : ∀ f ∈ msetSortedList s.val, f ∈ s := by
        intro f hf
        rw [← Multiset.mem_coe, msetSortedList_coe] at hf
        exact hf
      have hgood' : ∀ f ∈ msetSortedList s.val, roundTripFlag f = true :=
        fun f hf => hgood f (hmem f hf)
      have hnl : ∀ x ∈ msetSortedList s.val, ∀ c ∈ x.data, c ≠ '\n' :=
        fun x hx => roundTripFlag_no_newline (hgood' x hx)
      refine ⟨msetSortedList s.val, ?_, ?_⟩
      · show Except.ok ((pyReadlines (flagsText s)).foldl (clang_line false (dirname fp)) []) = _
        unfold flagsText
        rw [pyReadlines_join (msetSortedList s.val) (by rw [hL]; simp) hnl,
          foldl_clang_roundTrip (dirname fp) (msetSortedList s.val) hgood' []]
        rw [List.nil_append]
      · exact msetSortedList_toFinset s

/-- C3 witness: the amended round trip evaluated on the concrete set
containing one define and one absolute include. -/
theorem c3_roundtrip_amended_witness :
    ∃ w2 : World,
      write_flags_to_file ⟨fun _ => none, 1, fun _ => none, .cancel⟩
          {"-DFOO", "-I/abs/include"} "/proj/.clang_complete" "overwrite" = .ok (w2, ["/proj/.clang_complete"]) ∧
      ∃ l, flags_from_clang_file w2.fs ⟨some "/proj/.clang_complete", none⟩ false = .ok l ∧
        l.toFinset = {"-DFOO", "-I/abs/include"} :=
  c3_roundtrip_amended ⟨fun _ => none, 1, fun _ => none, .cancel⟩
    {"-DFOO", "-I/abs/include"} "/proj/.clang_complete" (by decide)

end ECC

namespace ECC

/-! ### Claim C2 -/

theorem was_modified_some_eq (p : String) (ls : Option Nat) (fs : FS) :
    File.was_modified ⟨some p, ls⟩ fs =
      match fs p with
      | none => (false, ⟨some p, ls⟩)
      | some r =>
        if ls = some r.mtime then (false, ⟨some p, ls⟩)
        else (true, ⟨some p, some r.mtime⟩) := rfl

theorem was_modified_none_eq (ls : Option Nat) (fs : FS) :
    File.was_modified ⟨none, ls⟩ fs = (false, ⟨none, ls⟩) := rfl

theorem was_modified_missing_eq {fs : FS} {p : String} (ls : Option Nat) (hr : fs p = none) :
    File.was_modified ⟨some p, ls⟩ fs = (false, ⟨some p, ls⟩) := by
  rw [was_modified_some_eq, hr]

theorem was_modified_seen_eq {fs : FS} {p : String} {r : FileRec} (ls : Option Nat)
    (hr : fs p = some r) (hseen : ls = some r.mtime) :
    File.was_modified ⟨some p, ls⟩ fs = (false, ⟨some p, ls⟩) := by
  rw [was_modified_some_eq, hr]
  show (if ls = some r.mtime then ((false, ⟨some p, ls⟩) : Bool × File)
    else (true, ⟨some p, some r.mtime⟩)) = (false, ⟨some p, ls⟩)
  rw [if_pos hseen]

theorem was_modified_fresh_eq {fs : FS} {p : String} {r : FileRec} (ls : Option Nat)
    (hr : fs p = some r) (hseen : ls ≠ some r.mtime) :
    File.was_modified ⟨some p, ls⟩ fs = (true, ⟨some p, some r.mtime⟩) := by
  rw [was_modified_some_eq, hr]
  show (if ls = some r.mtime then ((false, ⟨some p, ls⟩) : Bool × File)
    else (true, ⟨some p, some r.mtime⟩)) = (true, ⟨some p, some r.mtime⟩)
  rw [if_neg hseen]

theorem full_path_mk (p : String) (ls : Option Nat) :
    File.full_path ⟨some p, ls⟩ = p := rfl

theorem folder_mk (p : String) (ls : Option Nat) :
    File.folder ⟨some p, ls⟩ = dirname p := rfl

/-- The reload step never raises: a file reported modified exists on
disk, so re-parsing it succeeds. -/
theorem step_clang_reload_ok (w : World) (m3 : FlagsManager) (sep : Bool) :
    ∃ m', step_clang_reload w m3 sep = .ok m' := by
  unfold step_clang_reload
  obtain ⟨⟨pa, ls⟩, hcf⟩ : ∃ f, m3.clang_complete_file = f := ⟨_, rfl⟩
  rw [hcf]
  cases pa with
  | none =>
    rw [was_modified_none_eq]
    exact ⟨_, rfl⟩
  | some p =>
    cases hr : w.fs p with
    | none =>
      rw [was_modified_missing_eq ls hr]
      exact ⟨_, rfl⟩
    | some r =>
      by_cases hseen : ls = some r.mtime
      · rw [was_modified_seen_eq ls hr hseen]
        exact ⟨_, rfl⟩
      · rw [was_modified_fresh_eq ls hr hseen, flags_from_clang_file_some hr sep]
        exact ⟨_, rfl⟩

/-- C2: when the flag set newly derived from the compilation database
has empty symmetric difference with the set parsed (without
include-separation) from the existing on-disk flag-list file,
`get_flags` performs no write at all: the filesystem, every file's
content and modification timestamp, and the whole world are returned
unchanged, with an empty write log. -/
theorem c2_no_write_when_symmdiff_empty
    (w : World) (m : FlagsManager) (sep : Bool) (p : String) (r : FileRec)
    (dbc : DBFileContent) (nf : Finset String) (curr : List String)
    (hu : m.use_cmake = true)
    (hp : m.cmake_file.path = some p)
    (hr : w.fs p = some r)
    (hnew : m.cmake_file.lastSeen ≠ some r.mtime)
    (hdb : w.cmakeDB p = some dbc)
    (hflags : flags_from_database dbc = .ok (some nf))
    (hcurr : flags_from_clang_file w.fs
        ⟨some (pathJoin (dirname p) FlagsManager.CLANG_COMPLETE_FILE_NAME), none⟩ false =
          .ok curr)
    (hsym : symmDiff nf curr.toFinset = ∅) :
    ∃ out : GetFlagsResult, get_flags w m sep = .ok out ∧
      out.world = w ∧ out.writes = [] := by
  obtain ⟨⟨cpa, cls⟩, hcf⟩ : ∃ f, m.cmake_file = f := ⟨_, rfl⟩
  rw [hcf] at hp hnew
  have hp' : cpa = some p := hp
  subst hp'
  have hnew' : cls ≠ some r.mtime := hnew
  have hstep1 : step_cmake_search w m = m := by
    simp [step_cmake_search, hcf, File.loaded]
  have hpr : cmake_pr w m = (true, ⟨some p, some r.mtime⟩) := by
    unfold cmake_pr
    rw [hu, hcf, was_modified_fresh_eq cls hr hnew']
    rfl
  have hnp : new_clang_path w m =
      pathJoin (dirname p) FlagsManager.CLANG_COMPLETE_FILE_NAME := by
    unfold new_clang_path
    rw [hpr]
    rfl
  have hstep2 : step_cmake w m =
      .ok (w, { m with cmake_file := ⟨some p, some r.mtime⟩ }, []) := by
    unfold step_cmake
    rw [hpr, hnp]
    simp only [full_path_mk, hdb, hflags, hcurr, hsym, Finset.card_empty,
      Nat.lt_irrefl, if_false]
    simp
  obtain ⟨m3, hm3⟩ := step_clang_reload_ok w
    (step_clang_search w { m with cmake_file := (⟨some p, some r.mtime⟩ : File) }) sep
  refine ⟨⟨m3.flags, m3, w, []⟩, ?_, rfl, rfl⟩
  show (match step_cmake w (step_cmake_search w m) with
    | .error e => (.error e : Except PyErr GetFlagsResult)
    | .ok (w2, m2, wr) =>
      match step_clang_reload w2 (step_clang_search w2 m2) sep with
      | .error e => .error e
      | .ok m4 => .ok ⟨m4.flags, m4, w2, wr⟩) = _
  rw [hstep1, hstep2]
  show (match step_clang_reload w
      (step_clang_search w { m with cmake_file := (⟨some p, some r.mtime⟩ : File) }) sep with
    | .error e => (.error e : Except PyErr GetFlagsResult)
    | .ok m4 => .ok ⟨m4.flags, m4, w, []⟩) = _
  rw [hm3]

/-- C2 witness: the theorem evaluated on a concrete world where the
database-derived flags coincide with the parsed on-disk flags. -/
theorem c2_no_write_when_symmdiff_empty_witness :
    ∃ out : GetFlagsResult,
      get_flags
          ⟨fun q => if q = "/a/CMakeLists.txt" then some ⟨"project", 0⟩
            else if q = "/a/.clang_complete" then some ⟨"-DFOO\n", 0⟩ else none, 1,
            fun _ => some (.val (some ["cc -DFOO"])), .cancel⟩
          ⟨⟨some "/a/CMakeLists.txt", none⟩, ⟨none, none⟩, [], ⟨some "/a", some "/"⟩,
            true, "overwrite"⟩ false = .ok out ∧
        out.world =
          ⟨fun q => if q = "/a/CMakeLists.txt" then some ⟨"project", 0⟩
            else if q = "/a/.clang_complete" then some ⟨"-DFOO\n", 0⟩ else none, 1,
            fun _ => some (.val (some ["cc -DFOO"])), .cancel⟩ ∧
        out.writes = [] :=
  c2_no_write_when_symmdiff_empty _ _ false "/a/CMakeLists.txt" ⟨"project", 0⟩
    (.val (some ["cc -DFOO"])) {"-DFOO"} ["-DFOO"]
    rfl rfl (by decide) (by decide) rfl (by decide) (by decide) (by decide)

end ECC

namespace ECC

/-! ### Claim C1 -/

/-- Write log of the second of two consecutive `get_flags` calls with
no external change between them (`none` when either call raises). -/
def secondCallWrites (w : World) (m : FlagsManager) (separate_includes : Bool) :
    Option (List String) :=
  match get_flags w m separate_includes with
  | .error _ => none
  | .ok out =>
    match get_flags out.world out.mgr separate_includes with
    | .error _ => none
    | .ok out2 => some out2.writes

/-- A forged manager state whose build-file reference points directly
at the `.clang_complete` file that the reconciler itself writes. -/
def cexM : FlagsManager :=
  ⟨⟨some "/a/.clang_complete", none⟩, ⟨none, none⟩, [],
    ⟨some "/a", some "/"⟩, true, "overwrite"⟩

/-- World for the C1 counterexample. -/
def cexW : World :=
  ⟨fun q => if q = "/a/.clang_complete" then some ⟨"-DOLD\n", 0⟩ else none, 1,
    fun _ => some (.val (some ["cc -isystem /u"])), .cancel⟩

/-- C1 counterexample: for the forged state `cexM`, whose build-file
reference points at the very `.clang_complete` file the reconciler
writes, the first call's write bumps that file's timestamp, so the
second call (with no external filesystem change in between) writes the
file again; the claim's universal quantification over every
`FlagsManager` state therefore fails. -/
theorem c1_counterexample :
    secondCallWrites cexW cexM false = some ["/a/.clang_complete"] := by decide

end ECC

namespace ECC

/-- Build-file references of the shape the program itself produces:
the reference is unset, or points at a file named `CMakeLists.txt`
joined onto some directory by a search.  The constructor starts with an
unset reference and only `File.search` for `CMakeLists.txt` ever
replaces it, so every state reachable from the constructor has this
shape. -/
def ReachableCmake (m : FlagsManager) : Prop :=
  m.cmake_file.path = none ∨
    ∃ d, m.cmake_file.path = some (pathJoin d FlagsManager.CMAKE_FILE_NAME)

/-- A file reference whose modification query reports no change and
returns the reference unchanged. -/
def FileQuiet (fs : FS) (f : File) : Prop := f.was_modified fs = (false, f)

/-- Quiescence of the cmake half of the orchestrator: when cmake is in
use, the stored build-file reference is either loaded and quiet or the
not-found result of the search the orchestrator would repeat. -/
def cmQuiet (w : World) (m : FlagsManager) : Prop :=
  m.use_cmake = true →
    (m.cmake_file.loaded = true ∧ FileQuiet w.fs m.cmake_file) ∨
    (m.cmake_file.loaded = false ∧
      File.search w.fs FlagsManager.CMAKE_FILE_NAME m.search_scope.from_folder
        m.search_scope.to_folder (some "project") = m.cmake_file)

/-- Quiescence of the flag-file half of the orchestrator. -/
def clQuiet (w : World) (m : FlagsManager) : Prop :=
  (m.clang_complete_file.loaded = true ∧ FileQuiet w.fs m.clang_complete_file) ∨
  (m.clang_complete_file.loaded = false ∧
    File.search w.fs FlagsManager.CLANG_COMPLETE_FILE_NAME m.search_scope.from_folder
      m.search_scope.to_folder none = m.clang_complete_file)

theorem loaded_false_path {f : File} (h : f.loaded = false) : f.path = none := by
  obtain ⟨pa, ls⟩ := f
  cases pa with
  | none => rfl
  | some p => exact absurd h (by simp [File.loaded])

theorem was_modified_unloaded {f : File} (h : f.path = none) (fs : FS) :
    f.was_modified fs = (false, f) := by
  obtain ⟨pa, ls⟩ := f
  have hpa : pa = none := h
  subst hpa
  rfl

theorem was_modified_path (f : File) (fs : FS) :
    ((f.was_modified fs).2).path = f.path := by
  obtain ⟨pa, ls⟩ := f
  cases pa with
  | none => rfl
  | some p =>
    cases hr : fs p with
    | none => rw [was_modified_missing_eq ls hr]
    | some r =>
      by_cases hseen : ls = some r.mtime
      · rw [was_modified_seen_eq ls hr hseen]
      · rw [was_modified_fresh_eq ls hr hseen]

/-- The modification query is idempotent over an unchanged filesystem:
the updated reference it returns is quiet. -/
theorem was_modified_idem (f : File) (fs : FS) :
    ((f.was_modified fs).2).was_modified fs = (false, (f.was_modified fs).2) := by
  obtain ⟨pa, ls⟩ := f
  cases pa with
  | none =>
    rw [was_modified_none_eq]
    exact was_modified_none_eq ls fs
  | some p =>
    cases hr : fs p with
    | none =>
      rw [was_modified_missing_eq ls hr]
      exact was_modified_missing_eq ls hr
    | some r =>
      by_cases hseen : ls = some r.mtime
      · rw [was_modified_seen_eq ls hr hseen]
        exact was_modified_seen_eq ls hr hseen
      · rw [was_modified_fresh_eq ls hr hseen]
        exact was_modified_seen_eq (some r.mtime) hr rfl

/-- The modification query only consults the filesystem at the file's
own bound path. -/
theorem was_modified_congr {f : File} {fs fs2 : FS}
    (hag : ∀ p, f.path = some p → fs2 p = fs p) :
    f.was_modified fs2 = f.was_modified fs := by
  obtain ⟨pa, ls⟩ := f
  cases pa with
  | none => rfl
  | some p =>
    have hp := hag p rfl
    rw [was_modified_some_eq, was_modified_some_eq, hp]

theorem pathJoin_getLast {a b : String} (hb : b.data ≠ []) :
    (pathJoin a b).data.getLast? = b.data.getLast? := by
  unfold pathJoin
  by_cases h1 : pyStartsWith b "/" = true
  · rw [if_pos h1]
  · rw [if_neg h1]
    by_cases h2 : (a = "" || endsWithSlash a) = true
    · rw [if_pos h2]
      show (a.data ++ b.data).getLast? = _
      exact List.getLast?_append_of_ne_nil _ hb
    · rw [if_neg h2]
      show ((a ++ "/").data ++ b.data).getLast? = _
      exact List.getLast?_append_of_ne_nil _ hb

/-- A path produced by joining `CMakeLists.txt` onto a directory never
coincides with one produced by joining `.clang_complete` onto a
directory: they end in different characters. -/
theorem cmake_path_ne_clang_path (d e : String) :
    pathJoin d FlagsManager.CMAKE_FILE_NAME ≠
      pathJoin e FlagsManager.CLANG_COMPLETE_FILE_NAME := by
  intro h
  have h1 : (pathJoin d FlagsManager.CMAKE_FILE_NAME).data.getLast? = some 't' := by
    rw [pathJoin_getLast (by decide)]
    decide
  have h2 : (pathJoin e FlagsManager.CLANG_COMPLETE_FILE_NAME).data.getLast? = some 'e' := by
    rw [pathJoin_getLast (by decide)]
    decide
  rw [h] at h1
  exact absurd (h1.symm.trans h2) (by decide)

end ECC

namespace ECC

/-- One step of the upward walk, stated as an equation. -/
theorem searchUpward_succ (fs : FS) (name : String) (n : Nat) (cur toF : String)
    (marker : Option String) :
    searchUpward fs name (n + 1) cur toF marker =
      (if (match fs (pathJoin cur name) with
          | none => false
          | some r =>
            match marker with
            | none => true
            | some mk => containsSub r.content mk) = true
       then (⟨some (pathJoin cur name), none⟩ : File)
       else if cur = toF then ⟨none, none⟩
       else if dirname cur = cur then ⟨none, none⟩
       else searchUpward fs name n (dirname cur) toF marker) := rfl

/-- Any reference the upward walk returns is unset or points at `name`
joined onto the directory where it was found. -/
theorem searchUpward_path (fs : FS) (name : String) :
    ∀ (fuel : Nat) (cur toF : String) (marker : Option String),
      (searchUpward fs name fuel cur toF marker).path = none ∨
        ∃ d, (searchUpward fs name fuel cur toF marker).path = some (pathJoin d name) := by
  intro fuel
  induction fuel with
  | zero => exact fun cur toF marker => Or.inl rfl
  | succ n ih =>
    intro cur toF marker
    rw [searchUpward_succ]
    by_cases hhit : (match fs (pathJoin cur name) with
        | none => false
        | some r =>
          match marker with
          | none => true
          | some mk => containsSub r.content mk) = true
    · rw [if_pos hhit]
      exact Or.inr ⟨cur, rfl⟩
    · rw [if_neg hhit]
      by_cases heq : cur = toF
      · rw [if_pos heq]
        exact Or.inl rfl
      · rw [if_neg heq]
        by_cases hpar : dirname cur = cur
        · rw [if_pos hpar]
          exact Or.inl rfl
        · rw [if_neg hpar]
          exact ih (dirname cur) toF marker

/-- Any reference `File.search` returns is unset or points at `name`
joined onto the directory where it was found. -/
theorem search_path (fs : FS) (name : String) (fromF toF marker : Option String) :
    (File.search fs name fromF toF marker).path = none ∨
      ∃ d, (File.search fs name fromF toF marker).path = some (pathJoin d name) := by
  cases fromF with
  | none => exact Or.inl rfl
  | some f =>
    cases toF with
    | none => exact Or.inl rfl
    | some t =>
      have hred : File.search fs name (some f) (some t) marker =
          (if (f = "" || t = "") = true then (⟨none, none⟩ : File)
           else searchUpward fs name (f.data.length + 1) f t marker) := rfl
      rw [hred]
      split
      · exact Or.inl rfl
      · exact searchUpward_path fs name (f.data.length + 1) f t marker

theorem step_cmake_search_eq_self {w : World} {m : FlagsManager}
    (h : (m.use_cmake && !m.cmake_file.loaded) = false) :
    step_cmake_search w m = m := by
  unfold step_cmake_search
  rw [h]
  rfl

theorem step_cmake_search_search {w : World} {m : FlagsManager}
    (h : (m.use_cmake && !m.cmake_file.loaded) = true) :
    step_cmake_search w m = { m with cmake_file := (File.search w.fs
      FlagsManager.CMAKE_FILE_NAME m.search_scope.from_folder m.search_scope.to_folder
      (some "project")) } := by
  unfold step_cmake_search
  rw [h]
  rfl

/-- The cmake-search step keeps the build-file reference inside the
reachable shape. -/
theorem step_cmake_search_reachable {w : World} {m : FlagsManager}
    (h : ReachableCmake m) : ReachableCmake (step_cmake_search w m) := by
  by_cases hc : (m.use_cmake && !m.cmake_file.loaded) = true
  · rw [step_cmake_search_search hc]
    exact search_path w.fs FlagsManager.CMAKE_FILE_NAME
      m.search_scope.from_folder m.search_scope.to_folder (some "project")
  · have hc2 : (m.use_cmake && !m.cmake_file.loaded) = false := by
      cases hb : (m.use_cmake && !m.cmake_file.loaded) with
      | true => exact absurd hb hc
      | false => rfl
    rw [step_cmake_search_eq_self hc2]
    exact h

/-- When the post-search state still uses cmake with an unloaded
build-file reference, repeating the search reproduces that reference. -/
theorem step_cmake_search_quiet {w : World} {m : FlagsManager}
    (hu : (step_cmake_search w m).use_cmake = true)
    (hl : (step_cmake_search w m).cmake_file.loaded = false) :
    File.search w.fs FlagsManager.CMAKE_FILE_NAME
      (step_cmake_search w m).search_scope.from_folder
      (step_cmake_search w m).search_scope.to_folder (some "project") =
      (step_cmake_search w m).cmake_file := by
  by_cases hc : (m.use_cmake && !m.cmake_file.loaded) = true
  · rw [step_cmake_search_search hc]
  · have hc2 : (m.use_cmake && !m.cmake_file.loaded) = false := by
      cases hb : (m.use_cmake && !m.cmake_file.loaded) with
      | true => exact absurd hb hc
      | false => rfl
    rw [step_cmake_search_eq_self hc2] at hu hl
    exfalso
    apply hc
    rw [hu, hl]
    rfl

end ECC

namespace ECC

theorem step_clang_search_fields (w : World) (m : FlagsManager) :
    (step_clang_search w m).cmake_file = m.cmake_file ∧
    (step_clang_search w m).use_cmake = m.use_cmake ∧
    (step_clang_search w m).search_scope = m.search_scope := by
  unfold step_clang_search
  split
  · exact ⟨rfl, rfl, rfl⟩
  · exact ⟨rfl, rfl, rfl⟩

theorem step_clang_search_loaded {w : World} {m : FlagsManager}
    (hl : m.clang_complete_file.loaded = true) :
    step_clang_search w m = m := by
  unfold step_clang_search
  rw [hl]
  rfl

theorem step_clang_search_unloaded {w : World} {m : FlagsManager}
    (hl : m.clang_complete_file.loaded = false) :
    (step_clang_search w m).clang_complete_file =
      File.search w.fs FlagsManager.CLANG_COMPLETE_FILE_NAME
        m.search_scope.from_folder m.search_scope.to_folder none := by
  unfold step_clang_search
  rw [hl]
  rfl

/-- Successful runs of the flag-file half leave the cmake fields alone
and store the post-query flag-file reference. -/
theorem step_clang_post {w : World} {m2 m3 : FlagsManager} {sep : Bool}
    (h : step_clang w m2 sep = .ok m3) :
    m3.cmake_file = m2.cmake_file ∧ m3.use_cmake = m2.use_cmake ∧
    m3.search_scope = m2.search_scope ∧
    m3.clang_complete_file =
      ((step_clang_search w m2).clang_complete_file.was_modified w.fs).2 := by
  unfold step_clang step_clang_reload at h
  by_cases hmod :
      ((step_clang_search w m2).clang_complete_file.was_modified w.fs).1 = true
  · rw [if_pos hmod] at h
    cases hp : flags_from_clang_file w.fs
        ((step_clang_search w m2).clang_complete_file.was_modified w.fs).2 sep with
    | error e =>
      rw [hp] at h
      have h2 : (Except.error e : Except PyErr FlagsManager) = .ok m3 := h
      exact Except.noConfusion h2
    | ok fl =>
      rw [hp] at h
      have h2 : (Except.ok { step_clang_search w m2 with
          clang_complete_file :=
            ((step_clang_search w m2).clang_complete_file.was_modified w.fs).2,
          flags := fl } : Except PyErr FlagsManager) = .ok m3 := h
      have h3 := Except.ok.inj h2
      rw [← h3]
      exact ⟨(step_clang_search_fields w m2).1, (step_clang_search_fields w m2).2.1,
        (step_clang_search_fields w m2).2.2, rfl⟩
  · rw [if_neg hmod] at h
    have h2 : (Except.ok { step_clang_search w m2 with
        clang_complete_file :=
          ((step_clang_search w m2).clang_complete_file.was_modified w.fs).2 } :
        Except PyErr FlagsManager) = .ok m3 := h
    have h3 := Except.ok.inj h2
    rw [← h3]
    exact ⟨(step_clang_search_fields w m2).1, (step_clang_search_fields w m2).2.1,
      (step_clang_search_fields w m2).2.2, rfl⟩

theorem ok_trip_inj {w1 w2 : World} {a1 a2 : FlagsManager} {l1 l2 : List String}
    (h : (Except.ok (w1, a1, l1) : Except PyErr (World × FlagsManager × List String)) =
      .ok (w2, a2, l2)) :
    w1 = w2 ∧ a1 = a2 ∧ l1 = l2 := by
  injection h with h1
  injection h1 with h2 h3
  injection h3 with h4 h5
  exact ⟨h2, h4, h5⟩

end ECC

namespace ECC

theorem step_cmake_false_eq {w : World} {m : FlagsManager}
    (hpr : (cmake_pr w m).1 = false) :
    step_cmake w m = .ok (w, { m with cmake_file := (cmake_pr w m).2 }, []) := by
  unfold step_cmake
  rw [hpr]
  rfl

/-- The modified branch of the cmake step, stated as an equation. -/
theorem step_cmake_true_eq {w : World} {m : FlagsManager}
    (hpr : (cmake_pr w m).1 = true) :
    step_cmake w m =
      (match w.cmakeDB (cmake_pr w m).2.full_path with
      | none => .ok (w, { m with cmake_file := (cmake_pr w m).2 }, [])
      | some dbc =>
        match flags_from_database dbc with
        | .error e => .error e
        | .ok none => .error .attributeError
        | .ok (some new_flags) =>
          match flags_from_clang_file w.fs ⟨some (new_clang_path w m), none⟩ false with
          | .error e => .error e
          | .ok curr =>
            if 0 < (symmDiff new_flags curr.toFinset).card then
              match write_flags_to_file w new_flags (new_clang_path w m)
                  m.flags_update_strategy with
              | .error e => .error e
              | .ok (w2, wr) => .ok (w2, { m with cmake_file := (cmake_pr w m).2 }, wr)
            else .ok (w, { m with cmake_file := (cmake_pr w m).2 }, [])) := by
  unfold step_cmake
  rw [hpr]
  rfl

/-- A successful write only touches the filesystem at the written
path. -/
theorem write_flags_fs {w : World} {nf : Finset String} {fp strat : String}
    {w2 : World} {wr : List String}
    (h : write_flags_to_file w nf fp strat = .ok (w2, wr)) :
    ∀ q, q ≠ fp → w2.fs q = w.fs q := by
  unfold write_flags_to_file at h
  cases hfs : w.fs fp with
  | none =>
    rw [hfs] at h
    have h2 : (Except.ok (doWrite w nf fp) : Except PyErr (World × List String)) =
      .ok (w2, wr) := h
    have h3 : (doWrite w nf fp).1 = w2 := congrArg Prod.fst (Except.ok.inj h2)
    intro q hq
    rw [← h3]
    show (if q = fp then some ⟨flagsText nf, w.clock⟩ else w.fs q) = w.fs q
    rw [if_neg hq]
  | some rec0 =>
    rw [hfs] at h
    have h2 : (if get_flags_strategy strat w.dialog = "keep_old" then
        (.ok (w, []) : Except PyErr (World × List String))
      else if get_flags_strategy strat w.dialog = "merge" then
        match flags_from_clang_file w.fs ⟨some fp, none⟩ false with
        | .error e => .error e
        | .ok curr => .ok (doWrite w (nf ∪ curr.toFinset) fp)
      else .ok (doWrite w nf fp)) = .ok (w2, wr) := h
    by_cases hk : get_flags_strategy strat w.dialog = "keep_old"
    · rw [if_pos hk] at h2
      have h3 : w = w2 := congrArg Prod.fst (Except.ok.inj h2)
      intro q hq
      rw [← h3]
    · rw [if_neg hk] at h2
      by_cases hm : get_flags_strategy strat w.dialog = "merge"
      · rw [if_pos hm] at h2
        cases hpc : flags_from_clang_file w.fs ⟨some fp, none⟩ false with
        | error e =>
          rw [hpc] at h2
          have h4 : (Except.error e : Except PyErr (World × List String)) =
            .ok (w2, wr) := h2
          exact Except.noConfusion h4
        | ok curr =>
          rw [hpc] at h2
          have h4 : (Except.ok (doWrite w (nf ∪ curr.toFinset) fp) :
            Except PyErr (World × List String)) = .ok (w2, wr) := h2
          have h3 : (doWrite w (nf ∪ curr.toFinset) fp).1 = w2 :=
            congrArg Prod.fst (Except.ok.inj h4)
          intro q hq
          rw [← h3]
          show (if q = fp then some ⟨flagsText (nf ∪ curr.toFinset), w.clock⟩ else w.fs q) =
            w.fs q
          rw [if_neg hq]
      · rw [if_neg hm] at h2
        have h4 : (Except.ok (doWrite w nf fp) : Except PyErr (World × List String)) =
          .ok (w2, wr) := h2
        have h3 : (doWrite w nf fp).1 = w2 := congrArg Prod.fst (Except.ok.inj h4)
        intro q hq
        rw [← h3]
        show (if q = fp then some ⟨flagsText nf, w.clock⟩ else w.fs q) = w.fs q
        rw [if_neg hq]

end ECC

namespace ECC

/-- Successful runs of the cmake step store the post-query build-file
reference, only touch the filesystem at the generated flag-file path,
and leave the world untouched when no modification was reported. -/
theorem step_cmake_spec {w : World} {m : FlagsManager} {w2 : World} {m2 : FlagsManager}
    {wr : List String} (h : step_cmake w m = .ok (w2, m2, wr)) :
    m2 = { m with cmake_file := (cmake_pr w m).2 } ∧
    (∀ q, q ≠ new_clang_path w m → w2.fs q = w.fs q) ∧
    ((cmake_pr w m).1 = false → w2 = w) := by
  cases hpr : (cmake_pr w m).1 with
  | false =>
    rw [step_cmake_false_eq hpr] at h
    obtain ⟨h1, h2, h3⟩ := ok_trip_inj h
    exact ⟨h2.symm, fun q _ => by rw [← h1], fun _ => h1.symm⟩
  | true =>
    have hcontra : true = false → w2 = w := fun hf => Bool.noConfusion hf
    rw [step_cmake_true_eq hpr] at h
    cases hdbc : w.cmakeDB (cmake_pr w m).2.full_path with
    | none =>
      rw [hdbc] at h
      have h2 : (Except.ok (w, { m with cmake_file := (cmake_pr w m).2 }, []) :
        Except PyErr (World × FlagsManager × List String)) = .ok (w2, m2, wr) := h
      obtain ⟨h3, h4, h5⟩ := ok_trip_inj h2
      exact ⟨h4.symm, fun q _ => by rw [← h3], hcontra⟩
    | some dbc =>
      rw [hdbc] at h
      simp only [] at h
      cases hfd : flags_from_database dbc with
      | error e =>
        rw [hfd] at h
        have h2 : (Except.error e : Except PyErr (World × FlagsManager × List String)) =
          .ok (w2, m2, wr) := h
        exact Except.noConfusion h2
      | ok onf =>
        rw [hfd] at h
        cases onf with
        | none =>
          have h2 : (Except.error .attributeError :
            Except PyErr (World × FlagsManager × List String)) = .ok (w2, m2, wr) := h
          exact Except.noConfusion h2
        | some nf =>
          simp only [] at h
          cases hpar : flags_from_clang_file w.fs ⟨some (new_clang_path w m), none⟩ false with
          | error e =>
            rw [hpar] at h
            have h2 : (Except.error e : Except PyErr (World × FlagsManager × List String)) =
              .ok (w2, m2, wr) := h
            exact Except.noConfusion h2
          | ok curr =>
            rw [hpar] at h
            have h2 : (if 0 < (symmDiff nf curr.toFinset).card then
                match write_flags_to_file w nf (new_clang_path w m)
                    m.flags_update_strategy with
                | .error e => .error e
                | .ok (w3, wr3) => .ok (w3, { m with cmake_file := (cmake_pr w m).2 }, wr3)
              else (.ok (w, { m with cmake_file := (cmake_pr w m).2 }, []) :
                Except PyErr (World × FlagsManager × List String))) = .ok (w2, m2, wr) := h
            by_cases hcard : 0 < (symmDiff nf curr.toFinset).card
            · rw [if_pos hcard] at h2
              cases hw : write_flags_to_file w nf (new_clang_path w m)
                  m.flags_update_strategy with
              | error e =>
                rw [hw] at h2
                have h4 : (Except.error e :
                  Except PyErr (World × FlagsManager × List String)) = .ok (w2, m2, wr) := h2
                exact Except.noConfusion h4
              | ok pr =>
                obtain ⟨w3, wr3⟩ := pr
                rw [hw] at h2
                have h4 : (Except.ok (w3, { m with cmake_file := (cmake_pr w m).2 }, wr3) :
                  Except PyErr (World × FlagsManager × List String)) = .ok (w2, m2, wr) := h2
                obtain ⟨h5, h6, h7⟩ := ok_trip_inj h4
                refine ⟨h6.symm, fun q hq => ?_, hcontra⟩
                rw [← h5]
                exact write_flags_fs hw q hq
            · rw [if_neg hcard] at h2
              have h4 : (Except.ok (w, { m with cmake_file := (cmake_pr w m).2 }, []) :
                Except PyErr (World × FlagsManager × List String)) = .ok (w2, m2, wr) := h2
              obtain ⟨h5, h6, h7⟩ := ok_trip_inj h4
              exact ⟨h6.symm, fun q _ => by rw [← h5], hcontra⟩

/-- Inversion of a successful `get_flags` run into its two phases. -/
theorem get_flags_inv {w : World} {m : FlagsManager} {sep : Bool} {out : GetFlagsResult}
    (h : get_flags w m sep = .ok out) :
    ∃ w2 m2 wr m3,
      step_cmake w (step_cmake_search w m) = .ok (w2, m2, wr) ∧
      step_clang w2 m2 sep = .ok m3 ∧
      out = ⟨m3.flags, m3, w2, wr⟩ := by
  have h2 : (match step_cmake w (step_cmake_search w m) with
    | .error e => (.error e : Except PyErr GetFlagsResult)
    | .ok (w2, m2, wr) =>
      match step_clang w2 m2 sep with
      | .error e => .error e
      | .ok m3 => .ok ⟨m3.flags, m3, w2, wr⟩) = .ok out := h
  cases hsc : step_cmake w (step_cmake_search w m) with
  | error e =>
    rw [hsc] at h2
    cases h2
  | ok trip =>
    obtain ⟨w2, m2, wr⟩ := trip
    rw [hsc] at h2
    simp only [] at h2
    cases hscl : step_clang w2 m2 sep with
    | error e =>
      rw [hscl] at h2
      cases h2
    | ok m3 =>
      rw [hscl] at h2
      exact ⟨w2, m2, wr, m3, rfl, hscl, (Except.ok.inj h2).symm⟩

end ECC

namespace ECC

/-- On a quiescent state `get_flags` is a no-op: it returns the stored
flags, the same manager, the same world, and writes nothing. -/
theorem get_flags_quiet (w : World) (m : FlagsManager) (sep : Bool)
    (hcm : cmQuiet w m) (hcl : clQuiet w m) :
    get_flags w m sep = .ok ⟨m.flags, m, w, []⟩ := by
  have hstep1 : step_cmake_search w m = m := by
    cases hu : m.use_cmake with
    | false => exact step_cmake_search_eq_self (by rw [hu]; rfl)
    | true =>
      rcases hcm hu with ⟨hl, _⟩ | ⟨hl, hs⟩
      · exact step_cmake_search_eq_self (by rw [hu, hl]; rfl)
      · rw [step_cmake_search_search (by rw [hu, hl]; rfl), hs]
  have hpr : cmake_pr w m = (false, m.cmake_file) := by
    cases hu : m.use_cmake with
    | false =>
      unfold cmake_pr
      rw [hu]
      rfl
    | true =>
      unfold cmake_pr
      rw [hu]
      show m.cmake_file.was_modified w.fs = (false, m.cmake_file)
      rcases hcm hu with ⟨_, hq⟩ | ⟨hl, _⟩
      · exact hq
      · exact was_modified_unloaded (loaded_false_path hl) w.fs
  have hstep2 : step_cmake w m = .ok (w, m, []) := by
    unfold step_cmake
    rw [hpr]
    rfl
  have hquiet_cl : m.clang_complete_file.was_modified w.fs = (false, m.clang_complete_file) := by
    rcases hcl with ⟨_, hq⟩ | ⟨hl, _⟩
    · exact hq
    · exact was_modified_unloaded (loaded_false_path hl) w.fs
  have hstep3 : step_clang_search w m = m := by
    rcases hcl with ⟨hl, _⟩ | ⟨hl, hs⟩
    · exact step_clang_search_loaded hl
    · unfold step_clang_search
      rw [hl, hs]
      rfl
  have hstep4 : step_clang w m sep = .ok m := by
    unfold step_clang
    rw [hstep3]
    unfold step_clang_reload
    rw [hquiet_cl]
    rfl
  show (match step_cmake w (step_cmake_search w m) with
    | .error e => (.error e : Except PyErr GetFlagsResult)
    | .ok (w2, m2, wr) =>
      match step_clang w2 m2 sep with
      | .error e => .error e
      | .ok m3 => .ok ⟨m3.flags, m3, w2, wr⟩) = _
  rw [hstep1, hstep2]
  show (match step_clang w m sep with
    | .error e => (.error e : Except PyErr GetFlagsResult)
    | .ok m3 => .ok ⟨m3.flags, m3, w, []⟩) = _
  rw [hstep4]

end ECC

namespace ECC

/-- After any successful `get_flags` run from a reachable-shaped state,
the returned state is quiescent over the returned world, and the
returned flag list is the one stored in the returned manager. -/
theorem get_flags_post {w : World} {m : FlagsManager} {sep : Bool} {out : GetFlagsResult}
    (hre : ReachableCmake m) (h : get_flags w m sep = .ok out) :
    cmQuiet out.world out.mgr ∧ clQuiet out.world out.mgr ∧ out.mgr.flags = out.flags := by
  obtain ⟨w2, m2, wr, m3, hsc, hscl, hout⟩ := get_flags_inv h
  subst hout
  show cmQuiet w2 m3 ∧ clQuiet w2 m3 ∧ m3.flags = m3.flags
  obtain ⟨m1, hm1⟩ : ∃ m1, step_cmake_search w m = m1 := ⟨_, rfl⟩
  rw [hm1] at hsc
  have hre1 : ReachableCmake m1 := by
    rw [← hm1]
    exact step_cmake_search_reachable hre
  obtain ⟨hm2, hfs, hfalse⟩ := step_cmake_spec hsc
  obtain ⟨hcm3, hu3, hsc3, hcl3⟩ := step_clang_post hscl
  have hc2 : m2.cmake_file = (cmake_pr w m1).2 := congrArg FlagsManager.cmake_file hm2
  have hum2 : m2.use_cmake = m1.use_cmake := by rw [hm2]
  have hsm2 : m2.search_scope = m1.search_scope := by rw [hm2]
  have hc31 : m3.cmake_file = (cmake_pr w m1).2 := hcm3.trans hc2
  have hu31 : m3.use_cmake = m1.use_cmake := hu3.trans hum2
  have hs31 : m3.search_scope = m1.search_scope := hsc3.trans hsm2
  refine ⟨?_, ?_, rfl⟩
  · show m3.use_cmake = true →
      (m3.cmake_file.loaded = true ∧ FileQuiet w2.fs m3.cmake_file) ∨
      (m3.cmake_file.loaded = false ∧
        File.search w2.fs FlagsManager.CMAKE_FILE_NAME m3.search_scope.from_folder
          m3.search_scope.to_folder (some "project") = m3.cmake_file)
    intro hu
    have hu1 : m1.use_cmake = true := hu31.symm.trans hu
    rcases hre1 with hpn | ⟨d, hpd⟩
    · have hprq : cmake_pr w m1 = (false, m1.cmake_file) := by
        unfold cmake_pr
        rw [hu1]
        show m1.cmake_file.was_modified w.fs = (false, m1.cmake_file)
        exact was_modified_unloaded hpn w.fs
      have hw2 : w2 = w := hfalse (by rw [hprq])
      have hc3m : m3.cmake_file = m1.cmake_file := by
        rw [hc31, hprq]
      have hl1 : m1.cmake_file.loaded = false := by
        unfold File.loaded
        rw [hpn]
        rfl
      refine Or.inr ⟨?_, ?_⟩
      · rw [hc3m]
        exact hl1
      · have hu1s : (step_cmake_search w m).use_cmake = true := by
          rw [hm1]
          exact hu1
        have hl1s : (step_cmake_search w m).cmake_file.loaded = false := by
          rw [hm1]
          exact hl1
        have hq0 := step_cmake_search_quiet hu1s hl1s
        rw [hm1] at hq0
        rw [hw2, hs31, hc3m]
        exact hq0
    · obtain ⟨⟨cpa, cls⟩, hcf⟩ : ∃ f, m1.cmake_file = f := ⟨_, rfl⟩
      rw [hcf] at hpd
      have hcpa : cpa = some (pathJoin d FlagsManager.CMAKE_FILE_NAME) := hpd
      subst hcpa
      have hpr0 : cmake_pr w m1 =
          File.was_modified ⟨some (pathJoin d FlagsManager.CMAKE_FILE_NAME), cls⟩ w.fs := by
        unfold cmake_pr
        rw [hu1, hcf]
        rfl
      cases hr : w.fs (pathJoin d FlagsManager.CMAKE_FILE_NAME) with
      | none =>
        have hprq : cmake_pr w m1 =
            (false, ⟨some (pathJoin d FlagsManager.CMAKE_FILE_NAME), cls⟩) := by
          rw [hpr0, was_modified_missing_eq cls hr]
        have hw2 : w2 = w := hfalse (by rw [hprq])
        have hc3m : m3.cmake_file =
            ⟨some (pathJoin d FlagsManager.CMAKE_FILE_NAME), cls⟩ := by
          rw [hc31, hprq]
        refine Or.inl ⟨?_, ?_⟩
        · rw [hc3m]
          rfl
        · show m3.cmake_file.was_modified w2.fs = (false, m3.cmake_file)
          rw [hc3m, hw2]
          exact was_modified_missing_eq cls hr
      | some r =>
        by_cases hseen : cls = some r.mtime
        · have hprq : cmake_pr w m1 =
              (false, ⟨some (pathJoin d FlagsManager.CMAKE_FILE_NAME), cls⟩) := by
            rw [hpr0, was_modified_seen_eq cls hr hseen]
          have hw2 : w2 = w := hfalse (by rw [hprq])
          have hc3m : m3.cmake_file =
              ⟨some (pathJoin d FlagsManager.CMAKE_FILE_NAME), cls⟩ := by
            rw [hc31, hprq]
          refine Or.inl ⟨?_, ?_⟩
          · rw [hc3m]
            rfl
          · show m3.cmake_file.was_modified w2.fs = (false, m3.cmake_file)
            rw [hc3m, hw2]
            exact was_modified_seen_eq cls hr hseen
        · have hprq : cmake_pr w m1 =
              (true, ⟨some (pathJoin d FlagsManager.CMAKE_FILE_NAME), some r.mtime⟩) := by
            rw [hpr0, was_modified_fresh_eq cls hr hseen]
          have hnp : new_clang_path w m1 =
              pathJoin (dirname (pathJoin d FlagsManager.CMAKE_FILE_NAME))
                FlagsManager.CLANG_COMPLETE_FILE_NAME := by
            unfold new_clang_path
            rw [hprq]
            rfl
          have hPne : pathJoin d FlagsManager.CMAKE_FILE_NAME ≠ new_clang_path w m1 := by
            rw [hnp]
            exact cmake_path_ne_clang_path d _
          have hr2 : w2.fs (pathJoin d FlagsManager.CMAKE_FILE_NAME) = some r :=
            (hfs _ hPne).trans hr
          have hc3m : m3.cmake_file =
              ⟨some (pathJoin d FlagsManager.CMAKE_FILE_NAME), some r.mtime⟩ := by
            rw [hc31, hprq]
          refine Or.inl ⟨?_, ?_⟩
          · rw [hc3m]
            rfl
          · show m3.cmake_file.was_modified w2.fs = (false, m3.cmake_file)
            rw [hc3m]
            exact was_modified_seen_eq (some r.mtime) hr2 rfl
  · show (m3.clang_complete_file.loaded = true ∧ FileQuiet w2.fs m3.clang_complete_file) ∨
      (m3.clang_complete_file.loaded = false ∧
        File.search w2.fs FlagsManager.CLANG_COMPLETE_FILE_NAME
          m3.search_scope.from_folder m3.search_scope.to_folder none =
          m3.clang_complete_file)
    cases hl : m3.clang_complete_file.loaded with
    | true =>
      refine Or.inl ⟨rfl, ?_⟩
      show m3.clang_complete_file.was_modified w2.fs = (false, m3.clang_complete_file)
      rw [hcl3]
      exact was_modified_idem (step_clang_search w2 m2).clang_complete_file w2.fs
    | false =>
      have hp3 : m3.clang_complete_file.path = none := loaded_false_path hl
      have hpscs : (step_clang_search w2 m2).clang_complete_file.path = none := by
        rw [hcl3, was_modified_path] at hp3
        exact hp3
      have hm2l : m2.clang_complete_file.loaded = false := by
        cases hx : m2.clang_complete_file.loaded with
        | false => rfl
        | true =>
          rw [step_clang_search_loaded hx] at hpscs
          have hx2 : m2.clang_complete_file.path.isSome = true := hx
          rw [hpscs] at hx2
          exact Bool.noConfusion hx2
      have hsearch := step_clang_search_unloaded (w := w2) (m := m2) hm2l
      have hwm : (step_clang_search w2 m2).clang_complete_file.was_modified w2.fs =
          (false, (step_clang_search w2 m2).clang_complete_file) :=
        was_modified_unloaded hpscs w2.fs
      have hcl3s : m3.clang_complete_file =
          (step_clang_search w2 m2).clang_complete_file := by
        rw [hcl3, hwm]
      refine Or.inr ⟨rfl, ?_⟩
      rw [hsc3, hcl3s, hsearch]

end ECC

namespace ECC

/-- C1 (amended): for every manager state whose build-file reference is
unset or names a `CMakeLists.txt` joined onto a directory by a search —
the shape of every state reachable from the constructor, since the
constructor starts with an unset reference and only the
`CMakeLists.txt` search ever replaces it — a second `get_flags` call
with no filesystem change between the calls returns the same flag list,
performs no filesystem write, and leaves manager and world unchanged.
(For forged states outside this shape the second call can write again:
`c1_counterexample`.) -/
theorem c1_idempotent_reachable (w : World) (m : FlagsManager) (sep : Bool)
    (out : GetFlagsResult) (hre : ReachableCmake m)
    (h : get_flags w m sep = .ok out) :
    get_flags out.world out.mgr sep = .ok ⟨out.flags, out.mgr, out.world, []⟩ := by
  obtain ⟨hcm, hcl, hfl⟩ := get_flags_post hre h
  rw [get_flags_quiet out.world out.mgr sep hcm hcl, hfl]

/-- World for the C1 witness: an empty filesystem. -/
def witW : World := ⟨fun _ => none, 0, fun _ => none, .cancel⟩

/-- Manager for the C1 witness: the constructor state itself. -/
def witM : FlagsManager := FlagsManager.init false "overwrite" ⟨some "/a", some "/"⟩

/-- C1 witness: the amended idempotence evaluated at the constructor
state over an empty filesystem; the second call reproduces the first
call's output with an empty write log. -/
theorem c1_idempotent_reachable_witness :
    get_flags witW witM false = .ok ⟨[], witM, witW, []⟩ ∧
    get_flags (⟨[], witM, witW, []⟩ : GetFlagsResult).world
        (⟨[], witM, witW, []⟩ : GetFlagsResult).mgr false =
      .ok ⟨(⟨[], witM, witW, []⟩ : GetFlagsResult).flags,
        (⟨[], witM, witW, []⟩ : GetFlagsResult).mgr,
        (⟨[], witM, witW, []⟩ : GetFlagsResult).world, []⟩ :=
  ⟨rfl, c1_idempotent_reachable witW witM false ⟨[], witM, witW, []⟩ (Or.inl rfl) rfl⟩

end ECC
